import Mathlib

/-!
Verification of the configuration subsystem of the EvanTools repository.

The definitions below are a shallow embedding of the Python sources:
  src/evan_tools/config/core/{manager,cache,merger,reload_controller}.py
  src/evan_tools/config/sources/{yaml_source,directory_source}.py
  src/evan_tools/config/main.py
Machine-level details that cannot influence the verified claims (thread
scheduling, logging) are not modelled; stateful Python objects are modelled
as explicit state-passing functions; Python exceptions are modelled with
`Except`.  Floating-point wall-clock times are modelled as natural numbers.
-/

/-- Configuration values: the subset of Python values the configuration
subsystem stores (YAML scalars, lists, and string-keyed mappings).
Python dicts are insertion-ordered, so mappings are association lists.
Floats are outside the model (only int/bool/str/null scalars). -/
inductive Val where
  | s (v : String)
  | i (n : Int)
  | b (v : Bool)
  | null
  | list (xs : List Val)
  | dict (entries : List (String × Val))
deriving Repr

/-- Entries of a Python dict, in insertion order. -/
abbrev Entries := List (String × Val)

/-- Python `d.get(k)` / `d[k]` on a dict: first binding of the key
(association lists arising from Python dicts have unique keys). -/
def lookupD : Entries → String → Option Val
  | [], _ => none
  | (k', v) :: tl, k => if k' = k then some v else lookupD tl k

/-- Python `d[k] = v` on a dict: replace the value in place if the key is
present (keeping its position), otherwise append at the end. -/
def setKey : Entries → String → Val → Entries
  | [], k, v => [(k, v)]
  | (k', v') :: tl, k, v => if k' = k then (k', v) :: tl else (k', v') :: setKey tl k v

/-- Keys of a dict, in order. -/
def keysOf (d : Entries) : List String := d.map Prod.fst

/-- Well-formedness of values as produced by Python: every nested dict has
pairwise-distinct keys (guaranteed by Python's dict type). -/
def valWF : Val → Bool
  | .s _ | .i _ | .b _ | .null => true
  | .list xs => listWF xs
  | .dict d => dictWF d
where
  /-- All elements of a list are well-formed. -/
  listWF : List Val → Bool
    | [] => true
    | v :: tl => valWF v && listWF tl
  /-- Keys are distinct and all values are well-formed. -/
  dictWF : Entries → Bool
    | [] => true
    | (k, v) :: tl => !(keysOf tl).contains k && valWF v && dictWF tl

mutual
/-- Model of pydash `merge_with(obj, source)` with no customizer (the form
`ConfigMerger.merge` uses), i.e. pydash/lodash `merge` of one source into a
destination: when both values are dicts or both are lists they are merged
recursively (lists index-wise), otherwise the source value replaces the
destination value. -/
def mergeVal : Val → Val → Val
  | .dict d1, .dict d2 => .dict (mergeDict d1 d2)
  | .list l1, .list l2 => .list (mergeList l1 l2)
  | _, v2 => v2

/-- Iterate the source dict's entries in order, setting each merged value
into the destination (pydash `_merge_with` over a dict source: a key
missing from the destination reads as `None`, which is not a container, so
the source value is copied). -/
def mergeDict : Entries → Entries → Entries
  | d1, [] => d1
  | d1, (k, sv) :: tl => mergeDict (setKey d1 k (mergeVal ((lookupD d1 k).getD .null) sv)) tl

/-- Iterate the source list by index (pydash `_merge_with` over a list
source): positions present in both are merged recursively, the source's
extra tail is appended, the destination's extra tail is kept. -/
def mergeList : List Val → List Val → List Val
  | l1, [] => l1
  | [], l2 => l2
  | ov :: t1, sv :: t2 => mergeVal ov sv :: mergeList t1 t2
end

/-- Model of `ConfigMerger.merge(*configs)` (config/core/merger.py):
`result = {}` then `result = pydash.merge_with(result, config)` for each
config in order. -/
def cmMerge (configs : List Entries) : Entries := configs.foldl mergeDict []

/-- Splitting a character list at the dots, accumulating the current
segment in reverse. -/
def splitOnDot : List Char → List Char → List String
  | [], acc => [String.mk acc.reverse]
  | c :: cs, acc =>
    if c = '.' then String.mk acc.reverse :: splitOnDot cs []
    else splitOnDot cs (c :: acc)

/-- Dot-delimited key path split, as pydash does for string paths like
`"database.host"`. -/
def splitPath (q : String) : List String := splitOnDot q.toList []

/-- Model of `pydash.get(obj, path, default)` restricted to the fragment the
repository exercises: dot-delimited paths whose segments are dict keys
(list indexing by numeric segments is outside the modelled fragment).
Returns `none` where pydash would return the default. -/
def getSegs : Val → List String → Option Val
  | v, [] => some v
  | .dict d, k :: rest => match lookupD d k with
    | some v' => getSegs v' rest
    | none => none
  | _, _ :: _ => none

/-- Model of `pydash.set_(obj, path, value)` restricted to the same
fragment: intermediate containers created for missing segments are dicts
(the repository only uses non-numeric key segments). -/
def setSegs : Entries → List String → Val → Entries
  | d, [], _ => d
  | d, [k], v => setKey d k v
  | d, k :: rest, v =>
    match lookupD d k with
    | some (.dict d') => setKey d k (.dict (setSegs d' rest v))
    | _ => setKey d k (.dict (setSegs [] rest v))

/-- Outcome of parsing one on-disk file: the parsed mapping, or the message
of the `yaml.YAMLError` the parse raised.  Storing the parse outcome (rather
than raw text) abstracts the YAML syntax; the serialization itself is
modelled separately for the round-trip claim. -/
structure FileRec where
  mtime : Nat
  content : Except String Entries
deriving Repr

/-- Snapshot of the file system: association of absolute paths to files;
a path absent from the list does not exist on disk. -/
abbrev Fs := List (String × FileRec)

/-- Look up a path on disk (`Path.exists` / `open`). -/
def lookupFs : Fs → String → Option FileRec
  | [], _ => none
  | (p', f) :: tl, p => if p' = p then some f else lookupFs tl p

/-- Overwrite or create a file (`open(path, "w")` + write). -/
def writeFs : Fs → String → FileRec → Fs
  | [], p, f => [(p, f)]
  | (p', f') :: tl, p, f => if p' = p then (p', f) :: tl else (p', f') :: writeFs tl p f

/-- State of `ReloadController` (config/core/reload_controller.py):
`_config_path` and `_last_mtime`. -/
structure RCState where
  configPath : Option String
  lastMtime : Option Nat
deriving Repr, DecidableEq

/-- Model of `ReloadController.has_file_changed` (reload_controller.py
lines 40-67).  Returns the boolean result together with the controller
state after the call (the method mutates `_last_mtime`). -/
def hasFileChanged (rc : RCState) (fs : Fs) : Bool × RCState :=
  match rc.configPath with
  | none => (true, rc)
  | some p =>
    match lookupFs fs p with
    | none =>
      match rc.lastMtime with
      | some _ => (true, { rc with lastMtime := none })
      | none => (false, rc)
    | some f =>
      match rc.lastMtime with
      | none => (true, { rc with lastMtime := some f.mtime })
      | some m =>
        if f.mtime ≠ m then (true, { rc with lastMtime := some f.mtime })
        else (false, rc)

/-- Model of `ReloadController.set_config_path` followed by
`_update_mtime`: record the path and its current mtime (or `none` when the
file does not exist). -/
def rcSetConfigPath (p : String) (fs : Fs) : RCState :=
  { configPath := some p, lastMtime := (lookupFs fs p).map FileRec.mtime }

/-- Character-level suffix test (avoiding platform-dependent byte
positions so that terms reduce). -/
def strEndsWith (s suf : String) : Bool := List.isSuffixOf suf.toList s.toList

/-- Lexicographic comparison of character lists by code point. -/
def charsLt : List Char → List Char → Bool
  | [], [] => false
  | [], _ :: _ => true
  | _ :: _, [] => false
  | a :: as, b :: bs =>
    if a.toNat < b.toNat then true
    else if b.toNat < a.toNat then false
    else charsLt as bs

/-- Python's `<` on strings: lexicographic by code point. -/
def strLt (a b : String) : Bool := charsLt a.toList b.toList

/-- Model of `YamlConfigSource.supports` (yaml_source.py line 90), the
check `ConfigManager.load` performs before reading:
`path.suffix.lower() in {".yaml", ".yml"}`.  Names are taken already
lower-cased; `path.suffix` is non-empty only when something precedes the
last dot, hence the length guards (a stemless `.yaml` has suffix `""`
and is not supported here). -/
def supportedExt (name : String) : Bool :=
  (strEndsWith name ".yaml" && decide (5 < name.length)) ||
  (strEndsWith name ".yml" && decide (4 < name.length))

/-- Filename filter of the directory scan (directory_source.py line 57):
`glob("*.yaml")` plus `glob("*.yml")`.  fnmatch's `*` matches any prefix
of the name, the empty one and one with a leading dot included, so the two
patterns together match exactly the names ending in one of the literal
extensions - a stemless hidden file named `.yaml` among them, unlike the
`path.suffix` check above.  `YamlConfigSource.read` itself performs no
extension check, so every globbed file is really read. -/
def globYaml (name : String) : Bool :=
  strEndsWith name ".yaml" || strEndsWith name ".yml"

/-- Stable insertion: the inserted element goes after every element
strictly below it and before the first element not below it. -/
def insBy (lt : α → α → Bool) (x : α) : List α → List α
  | [] => [x]
  | y :: ys => if lt y x then y :: insBy lt x ys else x :: y :: ys

/-- Stable ascending insertion sort, modelling Python's stable `sorted`. -/
def stableSortBy (lt : α → α → Bool) : List α → List α
  | [] => []
  | x :: xs => insBy lt x (stableSortBy lt xs)

/-- Listing of one directory for the directory-aggregating source: file
names paired with their parse outcome. -/
abbrev DirListing := List (String × Except String Entries)

/-- Model of `DirectoryConfigSource._read_directory` (directory_source.py
lines 48-80): keep the files the two globs match, sorted by name
(`sorted(list(glob(".yaml")) + list(glob(".yml")))` - no name matches
both patterns, so this is a plain sort of the union), return the empty
mapping when there are none, else fold them through `ConfigMerger.merge`,
skipping (`continue`) every file whose read raises.  The method itself
never raises, hence the always-`ok` `Except` result. -/
def readDirectory (files : DirListing) : Except String Entries :=
  let yamlFiles :=
    stableSortBy (fun a b => strLt a.1 b.1) (files.filter fun f => globYaml f.1)
  if yamlFiles.isEmpty then .ok []
  else .ok (yamlFiles.foldl (fun acc f =>
    match f.2 with
    | .ok cfg => cmMerge [acc, cfg]
    | .error _ => acc) [])

/-- Numeric `priority` field of a fragment, with the loader's default:
`o.get("priority", -1)` (config/main.py line 150).  This is the sort key
only on fragments whose `priority`, when present, is an `int`
(`intPriority` below): a non-int value makes Python's `sorted` behave
differently (mixed `str`/`int` keys raise `TypeError`, all-`str` keys
sort lexicographically, `bool` keys order as `0`/`1`), so theorems
quantifying over fragments carry an `intPriority` hypothesis. -/
def priorityOf (d : Entries) : Int :=
  match lookupD d "priority" with
  | some (.i n) => n
  | _ => -1

/-- The fragment's `priority` is an `int` or absent (then the default
`-1` applies): the domain on which `priorityOf` is faithful and the
loader's `sorted(contents, key=lambda o: o.get("priority", -1))` is the
total stable ascending integer sort this file models. -/
def intPriority (d : Entries) : Bool :=
  match lookupD d "priority" with
  | some (.i _) => true
  | some _ => false
  | none => true

/-- Model of `_load_config_unlocked` (config/main.py lines 110-155) on an
already-scanned list of files (in `os.walk` order): `_read_yaml_cached`
yields `{}` for a file that fails to read or parse, and only files with a
truthy (non-empty) mapping are counted as loaded and contribute; if there
were candidate files but none loaded, a `RuntimeError` is raised; the
loaded contents are stably sorted by their `priority` field (default `-1`)
and merged in that order with `pydash.merge`.
`goodContents` extracts the contributing contents, in scan order. -/
def goodContents (files : DirListing) : List Entries :=
  files.filterMap fun f =>
    match f.2 with
    | .ok cfg => if cfg.isEmpty then none else some cfg
    | .error _ => none

/-- Truthiness of one scanned file's `_read_yaml_cached` outcome: read and
parse succeeded and the mapping is non-empty (`if item:`). -/
def isGood (f : String × Except String Entries) : Bool :=
  match f.2 with
  | .ok c => !c.isEmpty
  | .error _ => false

/-- Value of a file known to be good (its parsed mapping). -/
def goodVal (f : String × Except String Entries) : Entries :=
  match f.2 with
  | .ok c => c
  | .error _ => []

def loadConfigUnlocked (files : DirListing) : Except String Entries :=
  let contents := goodContents files
  if !files.isEmpty && contents.isEmpty then .error "all config files failed to load"
  else .ok ((stableSortBy (fun a b => decide (priorityOf a < priorityOf b)) contents).foldl (fun acc c => mergeDict acc c) [])

/-- Typed model of the Python exceptions the manager can raise. -/
inductive MErr where
  | unsupportedFormat (path : String)
  | notFound (path : String)
  | parseError (msg : String)
  | notLoaded
  | noCache
deriving Repr, DecidableEq

/-- State of a `ConfigManager` (config/core/manager.py) together with the
file-system snapshot it runs against.  `cache`/`lastReload` model the
`ConfigCache` fields `_cache` and `_last_reload_time`; `rc` models the
`ReloadController`; `configPath`/`defaults` model `_config_path` and
`_default_config` (paths are taken already resolved, so `_base_path`
resolution is the identity); `interval` is `reload_interval_seconds`.
The reader/writer lock only serializes threads and is invisible to this
sequential value-level model. -/
structure MState where
  fs : Fs
  cache : Option Entries
  lastReload : Nat
  interval : Nat
  rc : RCState
  configPath : Option String
  defaults : Entries

/-- Model of `ConfigCache.should_reload` (config/core/cache.py lines
48-59): true when nothing is cached yet or the interval has elapsed. -/
def shouldReload (s : MState) (now : Nat) : Bool :=
  match s.cache with
  | none => true
  | some _ => s.interval ≤ now - s.lastReload

/-- Model of `YamlConfigSource.read` via `DirectoryConfigSource.read` for a
file path (yaml_source.py lines 21-53): `FileNotFoundError` when the path
does not exist, the `yaml.YAMLError` when parsing fails, else the parsed
mapping (`None`, i.e. an empty file, becomes `{}` - already reflected in
the stored parse outcome). -/
def sourceReadFile (fs : Fs) (p : String) : Except MErr Entries :=
  match lookupFs fs p with
  | none => .error (.notFound p)
  | some f =>
    match f.content with
    | .error e => .error (.parseError e)
    | .ok cfg => .ok cfg

/-- Model of `ConfigManager.load` (manager.py lines 65-129): check
`supports`, read through the source, merge the defaults under the loaded
tree when defaults are non-empty (`if default_config:`), store the result
in the cache (stamping the cache time), rebase the reload controller on the
file's current mtime, and remember path and defaults for `reload`. -/
def managerLoad (s : MState) (p : String) (defaults : Entries) (now : Nat) :
    Except MErr MState :=
  if !supportedExt p then .error (.unsupportedFormat p)
  else
    match sourceReadFile s.fs p with
    | .error e => .error e
    | .ok loaded =>
      let final := if defaults.isEmpty then loaded else cmMerge [defaults, loaded]
      .ok { s with
            cache := some final
            lastReload := now
            rc := rcSetConfigPath p s.fs
            configPath := some p
            defaults := defaults }

/-- Model of `ConfigManager.reload` (manager.py lines 222-237):
`RuntimeError` when never loaded, else re-run `load` with the remembered
path and defaults. -/
def managerReload (s : MState) (now : Nat) : Except MErr MState :=
  match s.configPath with
  | none => .error .notLoaded
  | some p => managerLoad s p s.defaults now

/-- Model of `ConfigManager._reload_if_needed` (manager.py lines 239-251):
skip unless the cache window has elapsed; otherwise consult
`has_file_changed` (whose baseline mutation sticks) and, when it reports a
change, perform `reload` - whose exceptions propagate, there is no handler
on this path. -/
def reloadIfNeeded (s : MState) (now : Nat) : Except MErr MState :=
  if !shouldReload s now then .ok s
  else
    let (changed, rc') := hasFileChanged s.rc s.fs
    let s' := { s with rc := rc' }
    if changed then managerReload s' now else .ok s'

/-- Model of `ConfigManager.get` (manager.py lines 131-166): run
`_reload_if_needed` first (its exceptions reach the caller), then answer
from the cache: the default when nothing is cached, the whole tree for a
`None` query, else `pydash.get` with the default. -/
def managerGet (s : MState) (q : Option String) (default : Val) (now : Nat) :
    Except MErr Val :=
  match reloadIfNeeded s now with
  | .error e => .error e
  | .ok s' =>
    .ok (match s'.cache with
      | none => default
      | some cfg =>
        match q with
        | none => .dict cfg
        | some qs => (getSegs (.dict cfg) (splitPath qs)).getD default)

/-- Model of `ConfigManager.set` (manager.py lines 168-192): start from the
cached tree or `{}`, apply `pydash.set_`, store the result back in the
cache (which also stamps the cache time).  No loaded-state precondition,
no disk access. -/
def managerSet (s : MState) (q : String) (v : Val) (now : Nat) : MState :=
  let cfg := s.cache.getD []
  { s with cache := some (setSegs cfg (splitPath q) v), lastReload := now }

/-- Model of `ConfigManager.sync` (manager.py lines 194-220):
`RuntimeError` when `load` was never called or the cache is empty;
otherwise the code writes THE WHOLE cached configuration back through the
source ("For now, just write the whole config"), giving the file a fresh
mtime. -/
def managerSync (s : MState) (now : Nat) : Except MErr MState :=
  match s.configPath with
  | none => .error .notLoaded
  | some p =>
    match s.cache with
    | none => .error .noCache
    | some cfg =>
      .ok { s with fs := writeFs s.fs p ⟨now, .ok cfg⟩ }

/-- Claim C3 as stated is false: a `has_file_changed` call that returns
true does update the stored baseline.  Concretely, with a tracked file
whose recorded mtime is 1 and whose current mtime is 2, the call returns
true and the controller's recorded mtime becomes 2. -/
theorem hasFileChanged_true_mutates_baseline_cex :
    (hasFileChanged ⟨some "app.yaml", some 1⟩ [("app.yaml", ⟨2, .ok []⟩)]).1 = true ∧
    (hasFileChanged ⟨some "app.yaml", some 1⟩ [("app.yaml", ⟨2, .ok []⟩)]).2 ≠
      (⟨some "app.yaml", some 1⟩ : RCState) := by
  have he : hasFileChanged ⟨some "app.yaml", some 1⟩ [("app.yaml", ⟨2, .ok []⟩)] =
      (true, ⟨some "app.yaml", some 2⟩) := rfl
  refine ⟨by rw [he], by rw [he]; intro h; exact absurd (congrArg RCState.lastMtime h) (by decide)⟩

/-- Claim C3 (amended): `has_file_changed` itself commits the observed
state into the baseline whenever it reports a change on a tracked path:
a differing (or first-seen) mtime is recorded, a deletion clears the
recorded mtime; only a call returning false (or a call with no tracked
path) leaves the controller state unchanged. -/
theorem hasFileChanged_commits_baseline :
    (∀ rc fs, (hasFileChanged rc fs).1 = false → (hasFileChanged rc fs).2 = rc) ∧
    (∀ rc fs p f m, rc.configPath = some p → lookupFs fs p = some f →
      rc.lastMtime = some m → f.mtime ≠ m →
      hasFileChanged rc fs = (true, { rc with lastMtime := some f.mtime })) ∧
    (∀ rc fs p f, rc.configPath = some p → lookupFs fs p = some f →
      rc.lastMtime = none →
      hasFileChanged rc fs = (true, { rc with lastMtime := some f.mtime })) ∧
    (∀ rc fs p m, rc.configPath = some p → lookupFs fs p = none →
      rc.lastMtime = some m →
      hasFileChanged rc fs = (true, { rc with lastMtime := none })) ∧
    (∀ rc fs, rc.configPath = none → (hasFileChanged rc fs).2 = rc) := by
  refine ⟨?_, ?_, ?_, ?_, ?_⟩
  · intro rc fs h
    unfold hasFileChanged at *
    rcases rc with ⟨cp, lm⟩
    rcases cp with _ | p <;> simp_all
    rcases hfs : lookupFs fs p with _ | f <;> rcases lm with _ | m <;> simp_all
    split at h <;> simp_all
  · intro rc fs p f m hcp hfs hlm hne
    rcases rc with ⟨cp, lm⟩
    simp_all [hasFileChanged]
  · intro rc fs p f hcp hfs hlm
    rcases rc with ⟨cp, lm⟩
    simp_all [hasFileChanged]
  · intro rc fs p m hcp hfs hlm
    rcases rc with ⟨cp, lm⟩
    simp_all [hasFileChanged]
  · intro rc fs hcp
    rcases rc with ⟨cp, lm⟩
    simp_all [hasFileChanged]

/-- Witness for the amended C3 theorem at concrete inputs: an unchanged
file leaves the baseline alone, and a changed file (mtime 1 recorded,
mtime 2 observed) gets the new mtime committed by the call itself. -/
theorem hasFileChanged_commits_baseline_witness :
    (hasFileChanged ⟨some "a.yaml", some 7⟩ [("a.yaml", ⟨7, .ok []⟩)]).2 =
      (⟨some "a.yaml", some 7⟩ : RCState) ∧
    hasFileChanged ⟨some "a.yaml", some 1⟩ [("a.yaml", ⟨2, .ok []⟩)] =
      (true, ⟨some "a.yaml", some 2⟩) := by
  constructor
  · exact hasFileChanged_commits_baseline.1 ⟨some "a.yaml", some 7⟩
      [("a.yaml", ⟨7, .ok []⟩)] rfl
  · exact hasFileChanged_commits_baseline.2.1 ⟨some "a.yaml", some 1⟩
      [("a.yaml", ⟨2, .ok []⟩)] "a.yaml" ⟨2, .ok []⟩ 1 rfl rfl rfl (by decide)

/-- Claim C10: reading an existing directory that contains no file with a
supported extension (.yaml/.yml) yields the empty tree, not an error.
"Supported" is what the scan's glob patterns match - any name ending in
the literal `.yaml` or `.yml`, a stemless hidden `.yaml` included. -/
theorem readDirectory_no_supported_files (files : DirListing)
    (h : ∀ f ∈ files, globYaml f.1 = false) :
    readDirectory files = .ok [] := by
  have hfilter : files.filter (fun f => globYaml f.1) = [] :=
    List.filter_eq_nil_iff.mpr (fun a ha => by simp [h a ha])
  simp [readDirectory, hfilter, stableSortBy]

/-- Witness for C10: a directory whose only entries are a text file and a
JSON file reads back as the empty mapping. -/
theorem readDirectory_no_supported_files_witness :
    readDirectory [("readme.txt", .ok [("a", .i 1)]), ("cfg.json", .error "x")] = .ok [] :=
  readDirectory_no_supported_files _ (by decide)

/-- Contents of the good files only, as a map over the good filter. -/
theorem goodContents_eq_map_filter (files : DirListing) :
    goodContents files = (files.filter isGood).map goodVal := by
  induction files with
  | nil => rfl
  | cons f tl ih =>
    rcases f with ⟨name, content⟩
    rcases content with e | c
    · simpa [goodContents, isGood, List.filterMap_cons] using ih
    · by_cases hc : c.isEmpty <;>
        simp_all [goodContents, isGood, goodVal, List.filterMap_cons]

/-- Claim C4 as stated is false for `DirectoryConfigSource`: a directory
whose only fragment fails to parse does not fail with an error - the read
succeeds and returns the empty mapping. -/
theorem readDirectory_all_failed_cex :
    readDirectory [("app.yaml", .error "mapping values are not allowed here")] = .ok [] := rfl

/-- Claim C4 (amended): failing fragments are skipped in both
implementations.  For the module-level loader `_load_config_unlocked`, if
at least one file loads with a non-empty mapping - and every loaded
fragment's `priority`, when present, is an `int`, so that the priority
sort itself cannot raise `TypeError` - the load succeeds and its result
only depends on those files; if there are candidate files and every one
of them fails (or is empty), the load fails with the all-sources-failed
`RuntimeError` (raised before the sort, so no priority restriction is
needed there).  (`DirectoryConfigSource._read_directory` instead always
succeeds, returning the empty mapping when every fragment fails - see the
counterexample.) -/
theorem loader_partial_failure :
    (∀ files : DirListing, (files.filter isGood).isEmpty = false →
      (∀ c ∈ goodContents files, intPriority c = true) →
      loadConfigUnlocked files = loadConfigUnlocked (files.filter isGood) ∧
      ∃ d, loadConfigUnlocked files = .ok d) ∧
    (∀ files : DirListing, files.isEmpty = false → files.filter isGood = [] →
      ∃ e, loadConfigUnlocked files = .error e) := by
  constructor
  · intro files hne _hip
    have hgc : goodContents files = (files.filter isGood).map goodVal :=
      goodContents_eq_map_filter files
    have hgc2 : goodContents (files.filter isGood) = (files.filter isGood).map goodVal := by
      rw [goodContents_eq_map_filter, List.filter_filter]
      simp
    have hcne : (goodContents files).isEmpty = false := by
      rcases h : files.filter isGood with _ | ⟨a, tl⟩
      · rw [h] at hne; simp at hne
      · rw [hgc, h]; rfl
    constructor
    · unfold loadConfigUnlocked
      rw [hgc, hgc2]
      have h1 : (((files.filter isGood).map goodVal).isEmpty) = false := by
        rw [← hgc]; exact hcne
      simp [h1]
    · unfold loadConfigUnlocked
      simp [hcne]
  · intro files hne hall
    have hgc : goodContents files = [] := by
      rw [goodContents_eq_map_filter, hall]; rfl
    unfold loadConfigUnlocked
    simp [hgc, hne]

/-- Witness for the amended C4 theorem: one good file (no `priority` key,
so the int-priority side condition holds) plus one malformed file load
successfully (and the malformed one is irrelevant), while a directory
scan finding only a malformed file raises. -/
theorem loader_partial_failure_witness :
    (loadConfigUnlocked [("a.yaml", .ok [("x", .i 1)]), ("b.yaml", .error "bad")] =
      loadConfigUnlocked [("a.yaml", .ok [("x", .i 1)])] ∧
      ∃ d, loadConfigUnlocked [("a.yaml", .ok [("x", .i 1)]), ("b.yaml", .error "bad")] = .ok d) ∧
    ∃ e, loadConfigUnlocked [("c.yaml", .error "bad")] = .error e := by
  constructor
  · have := loader_partial_failure.1
      [("a.yaml", .ok [("x", .i 1)]), ("b.yaml", .error "bad")] (by rfl) (by decide)
    simpa using this
  · exact loader_partial_failure.2 [("c.yaml", .error "bad")] rfl rfl

/-- Fragment with `priority: 1` setting `db.host` to `"a"`. -/
def fragA : Entries := [("priority", .i 1), ("db", .dict [("host", .s "a")])]

/-- Fragment with `priority: 2` setting `db.host` to `"b"`. -/
def fragB : Entries := [("priority", .i 2), ("db", .dict [("host", .s "b")])]

/-- Fragment with `priority: 3` setting `db.host` to `"c"`. -/
def fragC : Entries := [("priority", .i 3), ("db", .dict [("host", .s "c")])]

/-- The `db.host` value a directory read produces. -/
def dirHost (files : DirListing) : Option Val :=
  match readDirectory files with
  | .ok d => getSegs (.dict d) ["db", "host"]
  | .error _ => none

/-- Claim C5 as stated is false for `DirectoryConfigSource`: it merges in
sorted-filename order and ignores the `priority` fields entirely.  With
the priority-1 fragment in `z.yaml`, priority-2 in `y.yaml` and priority-3
in `x.yaml`, the aggregate has `db.host == "a"`, not `"c"`. -/
theorem readDirectory_ignores_priority_cex :
    dirHost [("z.yaml", .ok fragA), ("y.yaml", .ok fragB), ("x.yaml", .ok fragC)] =
      some (.s "a") ∧ (Val.s "a") ≠ (Val.s "c") := by
  refine ⟨rfl, fun h => ?_⟩
  injection h with h'
  exact absurd h' (by decide)

/-- Claim C5 (amended): the module-level loader `_load_config_unlocked`
realizes the priority ordering: whatever order the directory scan yields
the three fragments in, it stably sorts their contents by the numeric
`priority` field (default -1, ascending, later overrides) and the
aggregate has `db.host == "c"`.  `DirectoryConfigSource` instead merges in
sorted-filename order and ignores `priority` (see the counterexample). -/
theorem loader_priority_order (files : DirListing)
    (h : files = [("f1.yaml", .ok fragA), ("f2.yaml", .ok fragB), ("f3.yaml", .ok fragC)] ∨
         files = [("f1.yaml", .ok fragA), ("f3.yaml", .ok fragC), ("f2.yaml", .ok fragB)] ∨
         files = [("f2.yaml", .ok fragB), ("f1.yaml", .ok fragA), ("f3.yaml", .ok fragC)] ∨
         files = [("f2.yaml", .ok fragB), ("f3.yaml", .ok fragC), ("f1.yaml", .ok fragA)] ∨
         files = [("f3.yaml", .ok fragC), ("f1.yaml", .ok fragA), ("f2.yaml", .ok fragB)] ∨
         files = [("f3.yaml", .ok fragC), ("f2.yaml", .ok fragB), ("f1.yaml", .ok fragA)]) :
    ∃ d, loadConfigUnlocked files = .ok d ∧ getSegs (.dict d) ["db", "host"] = some (.s "c") := by
  rcases h with h | h | h | h | h | h <;> subst h <;> exact ⟨_, rfl, rfl⟩

/-- Witness for the amended C5 theorem at one concrete scan order (the
reversed one). -/
theorem loader_priority_order_witness :
    ∃ d, loadConfigUnlocked
        [("f3.yaml", .ok fragC), ("f2.yaml", .ok fragB), ("f1.yaml", .ok fragA)] = .ok d ∧
      getSegs (.dict d) ["db", "host"] = some (.s "c") :=
  loader_priority_order _ (by simp)

/-- Manager state with a good cached configuration whose backing file has
since been rewritten (new mtime 2) with malformed content. -/
def staleState : MState :=
  { fs := [("c.yaml", ⟨2, .error "bad"⟩)]
    cache := some [("a", .i 1)]
    lastReload := 0
    interval := 5
    rc := ⟨some "c.yaml", some 1⟩
    configPath := some "c.yaml"
    defaults := [] }

/-- Claim C2 as stated is false: with a cached configuration present, an
elapsed reload window and a changed-but-malformed backing file, `get`
raises the parse error to its caller instead of returning the cached
value. -/
theorem managerGet_error_despite_cache_cex :
    managerGet staleState (some "a") .null 10 = .error (.parseError "bad") ∧
    staleState.cache = some [("a", .i 1)] := ⟨rfl, rfl⟩

/-- Claim C2 (amended): there is no handler on the auto-reload path inside
`get`: whenever the reload window has elapsed, `has_file_changed` reports
a change, and the resulting `reload` fails, `get` propagates that failure
to its caller (it does not fall back to the cached value). -/
theorem managerGet_propagates_reload_error (s : MState) (q : Option String)
    (default : Val) (now : Nat) (e : MErr) (rc' : RCState)
    (hsr : shouldReload s now = true)
    (hch : hasFileChanged s.rc s.fs = (true, rc'))
    (hrl : managerReload { s with rc := rc' } now = .error e) :
    managerGet s q default now = .error e := by
  unfold managerGet reloadIfNeeded
  rw [hsr, hch]
  simp [hrl]

/-- Witness for the amended C2 theorem at the concrete stale state. -/
theorem managerGet_propagates_reload_error_witness :
    managerGet staleState (some "a") .null 10 = .error (.parseError "bad") :=
  managerGet_propagates_reload_error staleState (some "a") .null 10
    (.parseError "bad") ⟨some "c.yaml", some 2⟩ rfl rfl rfl

/-- Setting a key makes it present with the new value. -/
theorem lookupD_setKey_eq (d : Entries) (k : String) (v : Val) :
    lookupD (setKey d k v) k = some v := by
  induction d with
  | nil => simp [setKey, lookupD]
  | cons e tl ih =>
    rcases e with ⟨k', v'⟩
    by_cases h : k' = k <;> simp [setKey, lookupD, h, ih]

/-- Setting one key does not disturb another key's binding. -/
theorem lookupD_setKey_ne (d : Entries) (k k' : String) (v : Val) (h : k' ≠ k) :
    lookupD (setKey d k' v) k = lookupD d k := by
  induction d with
  | nil => simp [setKey, lookupD, h]
  | cons e tl ih =>
    rcases e with ⟨k'', v''⟩
    by_cases h2 : k'' = k' <;> simp [setKey, lookupD, h2, ih]
    subst h2
    simp [h]

/-- Reading back a freshly set dotted path yields the value that was set
(for non-empty paths). -/
theorem getSegs_setSegs (segs : List String) (d : Entries) (v : Val)
    (h : segs ≠ []) :
    getSegs (.dict (setSegs d segs v)) segs = some v := by
  induction segs generalizing d with
  | nil => exact absurd rfl h
  | cons k rest ih =>
    rcases rest with _ | ⟨k2, rest'⟩
    · simp [setSegs, getSegs, lookupD_setKey_eq]
    · rcases hlk : lookupD d k with _ | w
      · simp only [setSegs, hlk]
        rw [show getSegs (.dict (setKey d k (.dict (setSegs [] (k2 :: rest') v))))
              (k :: k2 :: rest') =
            getSegs ((lookupD (setKey d k (.dict (setSegs [] (k2 :: rest') v))) k).getD .null)
              (k2 :: rest') from by simp [getSegs, lookupD_setKey_eq]]
        rw [lookupD_setKey_eq]
        exact ih [] (by simp)
      · rcases w with _ | _ | _ | _ | xs | d' <;>
          · simp only [setSegs, hlk]
            rw [show ∀ D, getSegs (Val.dict (setKey d k (.dict D))) (k :: k2 :: rest') =
                  getSegs (.dict D) (k2 :: rest') from fun D => by
                simp [getSegs, lookupD_setKey_eq]]
            exact ih _ (by simp)

/-- Numeric path segment (pydash treats these as list indices; the
repository only uses non-numeric key segments). -/
def isNumericSeg (x : String) : Bool := !x.isEmpty && x.toList.all Char.isDigit

/-- Claim C9: `set` has no loaded-state precondition.  On a manager that
was never loaded (`configPath = none`, empty cache), `set(q, v)` succeeds
starting from the empty tree, caches the result, and a `get(q)` inside the
fresh reload window returns `v` - whereas `sync` and `reload` on the same
never-loaded manager fail with the not-loaded `RuntimeError`.  (The path
is restricted to the modelled non-numeric dot-path fragment of pydash.) -/
theorem managerSet_works_without_load (s : MState) (q : String) (v default : Val)
    (now now' : Nat)
    (hcache : s.cache = none) (hload : s.configPath = none)
    (hq : splitPath q ≠ [])
    (hnum : ∀ seg ∈ splitPath q, isNumericSeg seg = false)
    (hwin : now' - now < s.interval) :
    managerGet (managerSet s q v now) (some q) default now' = .ok v ∧
    managerSync s now = .error .notLoaded ∧
    managerReload s now = .error .notLoaded := by
  refine ⟨?_, by simp [managerSync, hload], by simp [managerReload, hload]⟩
  have hsr : shouldReload (managerSet s q v now) now' = false := by
    simp [shouldReload, managerSet]
    omega
  unfold managerGet reloadIfNeeded
  rw [hsr]
  simp [managerSet, hcache, getSegs_setSegs (splitPath q) [] v hq]

/-- Witness for C9: on a fresh manager, `set("database.host", "prod")`
followed by `get("database.host")` one time unit later returns `"prod"`,
while `sync` and `reload` fail. -/
theorem managerSet_works_without_load_witness :
    managerGet (managerSet ⟨[], none, 0, 5, ⟨none, none⟩, none, []⟩
        "database.host" (.s "prod") 0) (some "database.host") .null 1 = .ok (.s "prod") ∧
    managerSync ⟨[], none, 0, 5, ⟨none, none⟩, none, []⟩ 0 = .error .notLoaded ∧
    managerReload ⟨[], none, 0, 5, ⟨none, none⟩, none, []⟩ 0 = .error .notLoaded :=
  managerSet_works_without_load ⟨[], none, 0, 5, ⟨none, none⟩, none, []⟩
    "database.host" (.s "prod") .null 0 1 rfl rfl (by decide) (by decide) (by decide)

/-- Fresh manager over a disk holding one file `app.yaml` with keys
`a` and `b`. -/
def c1Start : MState :=
  { fs := [("app.yaml", ⟨1, .ok [("a", .i 1), ("b", .i 2)]⟩)]
    cache := none
    lastReload := 0
    interval := 5
    rc := ⟨none, none⟩
    configPath := none
    defaults := [] }

/-- Scenario of the write-back claim: `load("app.yaml", defaults={c: 0})`,
then `set("c", 5)`, then `sync()`. -/
def c1Run : Except MErr MState := do
  let s1 ← managerLoad c1Start "app.yaml" [("c", .i 0)] 10
  let s2 := managerSet s1 "c" (.i 5) 11
  managerSync s2 12

/-- Value of key `k` inside the on-disk content of path `p` after a
manager run. -/
def fileKeyAfter (r : Except MErr MState) (p k : String) : Option Val :=
  match r with
  | .error _ => none
  | .ok s =>
    match lookupFs s.fs p with
    | none => none
    | some f =>
      match f.content with
      | .error _ => none
      | .ok d => lookupD d k

/-- Claim C1 is the documented intent but the code violates it:
`ConfigManager.sync` writes the whole cached tree back ("For now, just
write the whole config"), so after loading `app.yaml` (which contributed
key paths {a, b}) with defaults contributing key path {c}, `set("c", 5)`
followed by `sync()` introduces key `c` into `app.yaml`'s on-disk
content. -/
theorem sync_writes_default_key_to_file :
    fileKeyAfter c1Run "app.yaml" "c" = some (.i 5) ∧
    fileKeyAfter c1Run "app.yaml" "a" = some (.i 1) := ⟨rfl, rfl⟩

/-- Merging anything into a missing (`None`) destination copies the
source. -/
theorem mergeVal_null (v : Val) : mergeVal .null v = v := by cases v <;> rfl

/-- Setting an absent key appends it. -/
theorem setKey_of_lookup_none (d : Entries) (k : String) (v : Val)
    (h : lookupD d k = none) : setKey d k v = d ++ [(k, v)] := by
  induction d with
  | nil => rfl
  | cons e tl ih =>
    rcases e with ⟨k', v'⟩
    by_cases hk : k' = k
    · simp [lookupD, hk] at h
    · simp only [lookupD, if_neg hk] at h
      simp [setKey, hk, ih h]

/-- Re-setting a key to its current value changes nothing. -/
theorem setKey_of_lookup_self (d : Entries) (k : String) (v : Val)
    (h : lookupD d k = some v) : setKey d k v = d := by
  induction d with
  | nil => simp [lookupD] at h
  | cons e tl ih =>
    rcases e with ⟨k', v'⟩
    by_cases hk : k' = k
    · simp only [lookupD, if_pos hk] at h
      injection h with h'
      subst h'
      simp [setKey, hk]
    · simp only [lookupD, if_neg hk] at h
      simp [setKey, hk, ih h]

/-- Lookup across an append when the key is absent from the front part. -/
theorem lookupD_append_of_none (d1 d2 : Entries) (k : String)
    (h : lookupD d1 k = none) : lookupD (d1 ++ d2) k = lookupD d2 k := by
  induction d1 with
  | nil => rfl
  | cons e tl ih =>
    rcases e with ⟨k', v'⟩
    by_cases hk : k' = k
    · simp [lookupD, hk] at h
    · simp only [lookupD, if_neg hk] at h
      simp [lookupD, hk, ih h]

/-- Merging a source dict none of whose keys exist in the destination
appends the source entries in order. -/
theorem mergeDict_append_fresh (sub acc : Entries)
    (hnd : (keysOf sub).Nodup)
    (hfresh : ∀ k ∈ keysOf sub, lookupD acc k = none) :
    mergeDict acc sub = acc ++ sub := by
  induction sub generalizing acc with
  | nil => simp [mergeDict]
  | cons e tl ih =>
    rcases e with ⟨k, sv⟩
    have hnd' := List.nodup_cons.mp (show (k :: keysOf tl).Nodup from hnd)
    have hk : lookupD acc k = none := hfresh k (List.mem_cons_self k _)
    rw [show mergeDict acc ((k, sv) :: tl) =
        mergeDict (setKey acc k (mergeVal ((lookupD acc k).getD .null) sv)) tl from rfl]
    rw [hk]
    simp only [Option.getD_none, mergeVal_null]
    rw [setKey_of_lookup_none acc k sv hk]
    rw [ih (acc ++ [(k, sv)]) hnd'.2
      (fun k' hk' => by
        have hne : k' ≠ k := fun he => hnd'.1 (he ▸ hk')
        have hmem : k' ∈ keysOf ((k, sv) :: tl) := List.mem_cons.mpr (Or.inr hk')
        rw [lookupD_append_of_none _ _ _ (hfresh k' hmem)]
        simp [lookupD, hne.symm])]
    simp

/-- Merging a dict with distinct keys into the empty destination gives it
back unchanged. -/
theorem mergeDict_nil_left (d : Entries) (hnd : (keysOf d).Nodup) :
    mergeDict [] d = d := by
  simpa using mergeDict_append_fresh d [] hnd (fun _ _ => rfl)

/-- Keys never touched by the source keep their bindings. -/
theorem lookupD_mergeDict_not_mem (sub acc : Entries) (k : String)
    (h : k ∉ keysOf sub) :
    lookupD (mergeDict acc sub) k = lookupD acc k := by
  induction sub generalizing acc with
  | nil => rfl
  | cons e tl ih =>
    rcases e with ⟨k', sv⟩
    have hne : k' ≠ k := fun he => h (by simp [keysOf, he])
    rw [show mergeDict acc ((k', sv) :: tl) =
        mergeDict (setKey acc k' (mergeVal ((lookupD acc k').getD .null) sv)) tl from rfl]
    rw [ih _ (fun hm => h (by simp [keysOf] at hm ⊢; exact Or.inr hm))]
    exact lookupD_setKey_ne _ _ _ _ hne

/-- Binding of a key present in both dicts after a merge: the recursive
merge of the two values. -/
theorem lookupD_mergeDict_both (d2 d1 : Entries) (k : String) (v1 v2 : Val)
    (hnd : (keysOf d2).Nodup)
    (h1 : lookupD d1 k = some v1) (h2 : lookupD d2 k = some v2) :
    lookupD (mergeDict d1 d2) k = some (mergeVal v1 v2) := by
  induction d2 generalizing d1 v1 with
  | nil => simp [lookupD] at h2
  | cons e tl ih =>
    rcases e with ⟨k', sv⟩
    have hnd' : (keysOf tl).Nodup := (List.nodup_cons.mp (show (k' :: keysOf tl).Nodup from hnd)).2
    rw [show mergeDict d1 ((k', sv) :: tl) =
        mergeDict (setKey d1 k' (mergeVal ((lookupD d1 k').getD .null) sv)) tl from rfl]
    by_cases hk : k' = k
    · subst hk
      simp only [lookupD, if_pos rfl] at h2
      injection h2 with h2'
      subst h2'
      have hknotl : k' ∉ keysOf tl :=
        (List.nodup_cons.mp (show (k' :: keysOf tl).Nodup from hnd)).1
      rw [lookupD_mergeDict_not_mem tl _ k' hknotl]
      rw [h1]
      simp only [Option.getD_some]
      exact lookupD_setKey_eq d1 k' (mergeVal v1 sv)
    · simp only [lookupD, if_neg hk] at h2
      exact ih _ v1 hnd' (by rw [lookupD_setKey_ne d1 k k' _ hk]; exact h1) h2

/-- Discriminator: is the value a mapping. -/
def isDictV : Val → Bool
  | .dict _ => true
  | _ => false

/-- Discriminator: is the value a list. -/
def isListV : Val → Bool
  | .list _ => true
  | _ => false

/-- Claim C6 as stated is false in the both-lists case: pydash merges two
lists element-wise by index instead of replacing.  Merging `{a: [1,2,3]}`
then `{a: [9]}` through `ConfigMerger.merge` yields `{a: [9,2,3]}`, not
`{a: [9]}` (the later tree's value). -/
theorem merge_lists_not_replaced_cex :
    lookupD (cmMerge [[("a", .list [.i 1, .i 2, .i 3])], [("a", .list [.i 9])]]) "a" =
      some (.list [.i 9, .i 2, .i 3]) ∧
    some (Val.list [.i 9, .i 2, .i 3]) ≠ some (Val.list [.i 9]) := by
  refine ⟨rfl, fun h => ?_⟩
  simp at h

/-- Claim C6 (amended): for a key present in both trees,
`ConfigMerger.merge(t1, t2)` assigns the recursive merge of the two
values, where: two mappings merge recursively; two lists merge
element-wise by index (the later list's element wins per index, and the
earlier list's extra tail is kept - lists are NOT replaced wholesale);
every other combination takes exactly t2's value. -/
theorem merge_overlapping_key (t1 t2 : Entries) (k : String) (v1 v2 : Val)
    (hnd1 : (keysOf t1).Nodup) (hnd2 : (keysOf t2).Nodup)
    (h1 : lookupD t1 k = some v1) (h2 : lookupD t2 k = some v2) :
    lookupD (cmMerge [t1, t2]) k = some (mergeVal v1 v2) ∧
    (∀ a b, v1 = .dict a → v2 = .dict b → mergeVal v1 v2 = .dict (mergeDict a b)) ∧
    (∀ a b, v1 = .list a → v2 = .list b → mergeVal v1 v2 = .list (mergeList a b)) ∧
    ((isDictV v1 = false ∨ isDictV v2 = false) →
     (isListV v1 = false ∨ isListV v2 = false) → mergeVal v1 v2 = v2) := by
  refine ⟨?_, ?_, ?_, ?_⟩
  · have : cmMerge [t1, t2] = mergeDict (mergeDict [] t1) t2 := rfl
    rw [this, mergeDict_nil_left t1 hnd1]
    exact lookupD_mergeDict_both t2 t1 k v1 v2 hnd2 h1 h2
  · rintro a b rfl rfl; rfl
  · rintro a b rfl rfl; rfl
  · intro hd hl
    cases v1 <;> cases v2 <;> simp_all [isDictV, isListV, mergeVal]

/-- Witness for the amended C6 theorem: key `k` present in both trees with
scalar values 1 and 2 merges to t2's value 2 (and the case equations hold
vacuously/trivially at these scalars). -/
theorem merge_overlapping_key_witness :
    lookupD (cmMerge [[("k", .i 1), ("x", .i 7)], [("k", .i 2)]]) "k" =
      some (mergeVal (.i 1) (.i 2)) ∧ mergeVal (Val.i 1) (Val.i 2) = Val.i 2 := by
  have h := merge_overlapping_key [("k", .i 1), ("x", .i 7)] [("k", .i 2)] "k"
    (.i 1) (.i 2) (by simp [keysOf]) (by simp [keysOf]) rfl rfl
  exact ⟨h.1, h.2.2.2 (Or.inl rfl) (Or.inl rfl)⟩

/-- Members of a well-formed list are well-formed. -/
theorem listWF_mem (l : List Val) (h : valWF.listWF l = true) (v : Val) (hv : v ∈ l) :
    valWF v = true := by
  induction l with
  | nil => cases hv
  | cons x tl ih =>
    simp only [valWF.listWF, Bool.and_eq_true] at h
    rcases List.mem_cons.mp hv with rfl | hv'
    · exact h.1
    · exact ih h.2 hv'

/-- Values of a well-formed dict are well-formed. -/
theorem dictWF_mem_val (d : Entries) (h : valWF.dictWF d = true) (k : String) (v : Val)
    (hv : (k, v) ∈ d) : valWF v = true := by
  induction d with
  | nil => cases hv
  | cons e tl ih =>
    rcases e with ⟨k', v'⟩
    simp only [valWF.dictWF, Bool.and_eq_true] at h
    rcases List.mem_cons.mp hv with he | hv'
    · injection he with he1 he2
      exact he2 ▸ h.1.2
    · exact ih h.2 hv'

/-- Entry membership gives key membership. -/
theorem mem_keysOf (d : Entries) (k : String) (v : Val) (hv : (k, v) ∈ d) :
    k ∈ keysOf d := by
  induction d with
  | nil => cases hv
  | cons e tl ih =>
    rcases List.mem_cons.mp hv with he | hv'
    · exact he ▸ List.mem_cons_self _ _
    · exact List.mem_cons.mpr (Or.inr (ih hv'))

/-- In a well-formed dict, lookup of a member's key finds that member's
value. -/
theorem dictWF_lookup (d : Entries) (h : valWF.dictWF d = true) (k : String) (v : Val)
    (hv : (k, v) ∈ d) : lookupD d k = some v := by
  induction d with
  | nil => cases hv
  | cons e tl ih =>
    rcases e with ⟨k', v'⟩
    rw [valWF.dictWF] at h
    simp only [Bool.and_eq_true, Bool.not_eq_true'] at h
    rcases List.mem_cons.mp hv with he | hv'
    · injection he with he1 he2
      simp [lookupD, he1, he2]
    · have hne : k' ≠ k := by
        intro he
        subst he
        exact (by decide : (true : Bool) ≠ false)
          (((List.elem_eq_true_of_mem (mem_keysOf tl k' v hv')).symm).trans h.1.1)
      simp [lookupD, hne, ih h.2 hv']

/-- A well-formed dict has pairwise-distinct keys. -/
theorem dictWF_nodup (d : Entries) (h : valWF.dictWF d = true) :
    (keysOf d).Nodup := by
  induction d with
  | nil => exact List.nodup_nil
  | cons e tl ih =>
    rcases e with ⟨k, v⟩
    rw [valWF.dictWF] at h
    simp only [Bool.and_eq_true, Bool.not_eq_true'] at h
    refine List.nodup_cons.mpr ⟨?_, ih h.2⟩
    intro hmem
    exact (by decide : (true : Bool) ≠ false)
      (((List.elem_eq_true_of_mem hmem).symm).trans h.1.1)

/-- Merging a list with itself element-by-element is the identity when
every element merges with itself to itself. -/
theorem mergeList_self (l : List Val) (h : ∀ v ∈ l, mergeVal v v = v) :
    mergeList l l = l := by
  induction l with
  | nil => rfl
  | cons x tl ih =>
    show mergeVal x x :: mergeList tl tl = x :: tl
    rw [h x (List.mem_cons_self _ _), ih (fun v hv => h v (List.mem_cons.mpr (Or.inr hv)))]

/-- Merging into a dict a sub-collection of its own bindings (each of
which merges with itself to itself) leaves the dict unchanged. -/
theorem mergeDict_sub (sub d : Entries)
    (h : ∀ p ∈ sub, lookupD d p.1 = some p.2 ∧ mergeVal p.2 p.2 = p.2) :
    mergeDict d sub = d := by
  induction sub with
  | nil => rfl
  | cons e tl ih =>
    rcases e with ⟨k, v⟩
    have he := h (k, v) (List.mem_cons_self _ _)
    rw [show mergeDict d ((k, v) :: tl) =
        mergeDict (setKey d k (mergeVal ((lookupD d k).getD .null) v)) tl from rfl]
    rw [he.1]
    simp only [Option.getD_some]
    rw [he.2, setKey_of_lookup_self d k v he.1]
    exact ih (fun p hp => h p (List.mem_cons.mpr (Or.inr hp)))

/-- Size bound for list members. -/
theorem sizeOf_mem_list (l : List Val) (v : Val) (hv : v ∈ l) :
    sizeOf v < sizeOf (Val.list l) := by
  have h1 : sizeOf v < sizeOf l := List.sizeOf_lt_of_mem hv
  simp only [Val.list.sizeOf_spec]
  omega

/-- Size bound for dict values. -/
theorem sizeOf_mem_dict (d : Entries) (k : String) (v : Val) (hv : (k, v) ∈ d) :
    sizeOf v < sizeOf (Val.dict d) := by
  have h1 : sizeOf (k, v) < sizeOf d := List.sizeOf_lt_of_mem hv
  have h2 : sizeOf (k, v) = 1 + sizeOf k + sizeOf v := rfl
  simp only [Val.dict.sizeOf_spec]
  omega

/-- Bounded-size induction core for self-merge idempotence. -/
theorem mergeVal_self_aux (n : Nat) :
    ∀ v : Val, sizeOf v ≤ n → valWF v = true → mergeVal v v = v := by
  induction n with
  | zero =>
    intro v hsz _
    exfalso
    cases v <;> simp at hsz
  | succ n ih =>
    intro v hsz hwf
    match v with
    | .s _ | .i _ | .b _ | .null => rfl
    | .list l =>
      show Val.list (mergeList l l) = Val.list l
      congr 1
      refine mergeList_self l (fun x hx => ih x ?_ ?_)
      · have := sizeOf_mem_list l x hx
        omega
      · exact listWF_mem l (by simpa [valWF] using hwf) x hx
    | .dict d =>
      show Val.dict (mergeDict d d) = Val.dict d
      congr 1
      refine mergeDict_sub d d (fun p hp => ?_)
      have hdwf : valWF.dictWF d = true := by simpa [valWF] using hwf
      rcases p with ⟨k, pv⟩
      refine ⟨dictWF_lookup d hdwf k pv hp, ih pv ?_ ?_⟩
      · have := sizeOf_mem_dict d k pv hp
        omega
      · exact dictWF_mem_val d hdwf k pv hp

/-- Merging any well-formed value with itself is the identity. -/
theorem mergeVal_self (v : Val) (hwf : valWF v = true) : mergeVal v v = v :=
  mergeVal_self_aux (sizeOf v) v le_rfl hwf

/-- Claim C7: `ConfigMerger.merge(t, t) == t` for every well-formed
configuration tree t (a Python dict: distinct keys at every level). -/
theorem cmMerge_self_idempotent (t : Entries) (hwf : valWF (.dict t) = true) :
    cmMerge [t, t] = t := by
  have hnd : (keysOf t).Nodup := dictWF_nodup t (by simpa [valWF] using hwf)
  have h1 : cmMerge [t, t] = mergeDict (mergeDict [] t) t := rfl
  rw [h1, mergeDict_nil_left t hnd]
  have := mergeVal_self (.dict t) hwf
  simpa [mergeVal] using this

/-- Witness for C7 on a tree exercising scalars, a nested mapping and a
list containing a nested mapping. -/
theorem cmMerge_self_idempotent_witness :
    cmMerge [[("a", .i 1), ("b", .dict [("c", .s "x")]),
              ("l", .list [.i 1, .dict [("z", .null)]])],
             [("a", .i 1), ("b", .dict [("c", .s "x")]),
              ("l", .list [.i 1, .dict [("z", .null)]])]] =
      [("a", .i 1), ("b", .dict [("c", .s "x")]),
       ("l", .list [.i 1, .dict [("z", .null)]])] :=
  cmMerge_self_idempotent _ (by rfl)

/-- One line of a YAML text file, as its character list (the on-disk file
is the newline-join of the lines). -/
abbrev Line := List Char

/-- Indentation prefix of `n` spaces. -/
def sp (n : Nat) : Line := List.replicate n ' '

/-- Digit character for a value below ten. -/
def digitChar (d : Nat) : Char :=
  match d with
  | 0 => '0' | 1 => '1' | 2 => '2' | 3 => '3' | 4 => '4'
  | 5 => '5' | 6 => '6' | 7 => '7' | 8 => '8' | _ => '9'

/-- Numeric value of a digit character. -/
def digitVal (c : Char) : Option Nat :=
  if 48 ≤ c.toNat && c.toNat ≤ 57 then some (c.toNat - 48) else none

/-- Decimal digits of a natural number, least significant first. -/
def natRevDigits (n : Nat) : List Char :=
  if h : n < 10 then [digitChar n]
  else digitChar (n % 10) :: natRevDigits (n / 10)
decreasing_by exact Nat.div_lt_self (by omega) (by omega)

/-- Decimal representation of a natural number (most significant first). -/
def natChars (n : Nat) : Line := (natRevDigits n).reverse

/-- PyYAML's plain representation of an int. -/
def intChars (n : Int) : Line :=
  if n < 0 then '-' :: natChars n.natAbs else natChars n.toNat

/-- Value of a least-significant-first digit list. -/
def parseRevDigits : List Char → Option Nat
  | [] => some 0
  | c :: tl =>
    match digitVal c with
    | none => none
    | some d =>
      match parseRevDigits tl with
      | none => none
      | some r => some (d + 10 * r)

/-- Parse an unsigned decimal numeral. -/
def parseNatChars (cs : List Char) : Option Nat :=
  if cs.isEmpty then none else parseRevDigits cs.reverse

/-- Parse an optionally-signed decimal numeral (the YAML int resolver
restricted to the forms the dumper emits). -/
def parseIntChars : List Char → Option Int
  | [] => none
  | c :: tl =>
    if c = '-' then
      match parseNatChars tl with
      | some m => some (-(m : Int))
      | none => none
    else
      match parseNatChars (c :: tl) with
      | some m => some ((m : Int))
      | none => none

/-- PyYAML plain-scalar text of a scalar value (containers unused). -/
def scalarChars : Val → Line
  | .s v => v.toList
  | .i n => intChars n
  | .b true => "true".toList
  | .b false => "false".toList
  | .null => "null".toList
  | .list _ => []
  | .dict _ => []

/-- The YAML scalar resolver for the plain forms the dumper emits:
ints, the canonical bool/null words, everything else a string. -/
def resolveScalar (cs : Line) : Val :=
  match parseIntChars cs with
  | some n => .i n
  | none =>
    if cs = "true".toList then .b true
    else if cs = "false".toList then .b false
    else if cs = "null".toList then .null
    else .s (String.mk cs)

/-- Inline value after `: ` (or after `- `): the flow forms of the empty
containers, else a plain scalar. -/
def resolveInline (cs : Line) : Val :=
  if cs = ['\x7b', '\x7d'] then .dict []
  else if cs = ['[', ']'] then .list []
  else resolveScalar cs

/-- Characters PyYAML keeps plain and resolves as strings, restricted to
a conservative set (lowercase letters and underscore): code points 97-122
and 95. -/
def plainChar (c : Char) : Bool :=
  (97 ≤ c.toNat && c.toNat ≤ 122) || c.toNat = 95

/-- Words of the YAML 1.1 resolver that do not resolve to plain strings
(PyYAML quotes these when dumping; they are outside the representable
plain-string set). -/
def reservedWord (cs : Line) : Bool :=
  cs = "true".toList || cs = "false".toList || cs = "null".toList ||
  cs = "yes".toList || cs = "no".toList || cs = "on".toList ||
  cs = "off".toList || cs = "y".toList || cs = "n".toList

/-- Strings PyYAML emits plain and reads back as the same string. -/
def plainStrChars (cs : Line) : Bool :=
  !cs.isEmpty && cs.all plainChar && !reservedWord cs

mutual
/-- Representable values for the round-trip contract: scalars are
ints/bools/null/plain strings, containers recursively representable.
Floats are outside the model; Python guarantees key uniqueness
orthogonally. -/
def reprV : Val → Bool
  | .s v => plainStrChars v.toList
  | .i _ => true
  | .b _ => true
  | .null => true
  | .list xs => reprL xs
  | .dict d => reprD d

/-- All list elements representable. -/
def reprL : List Val → Bool
  | [] => true
  | v :: tl => reprV v && reprL tl

/-- All keys plain and all values representable. -/
def reprD : Entries → Bool
  | [] => true
  | (k, v) :: tl => plainStrChars k.toList && reprV v && reprD tl
end

/-- Turn the first line of a nested block (indented two deeper) into its
`- ` element form, as PyYAML splices the dash into the indentation. -/
def dashFirst (n : Nat) : List Line → List Line
  | [] => []
  | l :: ls => (sp n ++ '-' :: ' ' :: l.drop (n + 2)) :: ls

mutual
/-- Model of PyYAML `safe_dump(..., default_flow_style=False,
sort_keys=False)` for one mapping entry at indentation `n` (yaml_source.py
write): scalars and empty containers inline after `key: `, a non-empty
mapping value on following lines indented two deeper, a non-empty list
value on following lines with dashes at the key's own indentation. -/
def dumpEntry (k : String) (v : Val) (n : Nat) : List Line :=
  match v with
  | .dict [] => [sp n ++ (k.toList ++ ':' :: ' ' :: '\x7b' :: '\x7d' :: [])]
  | .list [] => [sp n ++ (k.toList ++ ':' :: ' ' :: '[' :: ']' :: [])]
  | .dict d' => (sp n ++ (k.toList ++ [':'])) :: dumpDict d' (n + 2)
  | .list l => (sp n ++ (k.toList ++ [':'])) :: dumpList l n
  | v' => [sp n ++ (k.toList ++ ':' :: ' ' :: scalarChars v')]

/-- Block-style dump of a mapping's entries at indentation `n`. -/
def dumpDict : Entries → Nat → List Line
  | [], _ => []
  | (k, v) :: tl, n => dumpEntry k v n ++ dumpDict tl n

/-- Dump of one sequence element at indentation `n`: scalars and empty
containers inline after `- `, nested containers via the dash splice. -/
def dumpElem (v : Val) (n : Nat) : List Line :=
  match v with
  | .dict [] => [sp n ++ '-' :: ' ' :: '\x7b' :: '\x7d' :: []]
  | .list [] => [sp n ++ '-' :: ' ' :: '[' :: ']' :: []]
  | .dict d' => dashFirst n (dumpDict d' (n + 2))
  | .list l' => dashFirst n (dumpList l' (n + 2))
  | v' => [sp n ++ '-' :: ' ' :: scalarChars v']

/-- Block-style dump of a sequence's elements at indentation `n`. -/
def dumpList : List Val → Nat → List Line
  | [], _ => []
  | v :: tl, n => dumpElem v n ++ dumpList tl n
end

/-- Split a line into its leading-space count and its content. -/
def splitIndent : Line → Nat × Line
  | [] => (0, [])
  | c :: tl =>
    if c = ' ' then
      let (n, r) := splitIndent tl
      (n + 1, r)
    else (0, c :: tl)

/-- Does the content start a sequence item (`- ` prefix)? -/
def isDashContent : Line → Bool
  | '-' :: ' ' :: _ => true
  | _ => false

/-- Split content at the first colon: `some (key, after)` or `none` when
no colon occurs. -/
def splitColon : Line → Option (Line × Line)
  | [] => none
  | c :: tl =>
    if c = ':' then some ([], tl)
    else (splitColon tl).map (fun p => (c :: p.1, p.2))

mutual
/-- Indentation-directed parser for a block mapping at exact indentation
`n` (the loader side of the round-trip: yaml.safe_load on the dumper's
output).  Consumes `key: value` and `key:` lines at indentation `n`,
descending into nested blocks; stops (returning the remaining lines) at
the first line with a different indentation.  Fuel bounds recursion. -/
def parseDict : Nat → Nat → List Line → Option (Entries × List Line)
  | 0, _, _ => none
  | _ + 1, _, [] => some ([], [])
  | f + 1, n, line :: rest =>
    let (ind, c) := splitIndent line
    if ind = n then
      if isDashContent c then none
      else
        match splitColon c with
        | none => none
        | some (k, after) =>
          if k.isEmpty then none
          else
            match after with
            | [] =>
              match rest with
              | [] => none
              | next :: _ =>
                let (ind2, c2) := splitIndent next
                if ind2 = n then
                  if isDashContent c2 then
                    match parseList f n rest with
                    | none => none
                    | some (xs, rem) =>
                      match parseDict f n rem with
                      | none => none
                      | some (es, rem2) => some ((String.mk k, .list xs) :: es, rem2)
                  else none
                else
                  if n < ind2 then
                    match parseDict f ind2 rest with
                    | none => none
                    | some (d', rem) =>
                      match parseDict f n rem with
                      | none => none
                      | some (es, rem2) => some ((String.mk k, .dict d') :: es, rem2)
                  else none
            | ' ' :: val =>
              match parseDict f n rest with
              | none => none
              | some (es, rem2) => some ((String.mk k, resolveInline val) :: es, rem2)
            | _ => none
    else some ([], line :: rest)

/-- Indentation-directed parser for a block sequence at exact indentation
`n`: consumes `- ...` lines, re-parsing spliced container elements two
levels deeper; stops at the first line that is not a dash item at `n`. -/
def parseList : Nat → Nat → List Line → Option (List Val × List Line)
  | 0, _, _ => none
  | _ + 1, _, [] => some ([], [])
  | f + 1, n, line :: rest =>
    let (ind, c) := splitIndent line
    if ind = n then
      match c with
      | '-' :: ' ' :: c0 =>
        if isDashContent c0 then
          match parseList f (n + 2) ((sp (n + 2) ++ c0) :: rest) with
          | none => none
          | some (xs, rem) =>
            match parseList f n rem with
            | none => none
            | some (es, rem2) => some (.list xs :: es, rem2)
        else
          match splitColon c0 with
          | some _ =>
            match parseDict f (n + 2) ((sp (n + 2) ++ c0) :: rest) with
            | none => none
            | some (d', rem) =>
              match parseList f n rem with
              | none => none
              | some (es, rem2) => some (.dict d' :: es, rem2)
          | none =>
            match parseList f n rest with
            | none => none
            | some (es, rem2) => some (resolveInline c0 :: es, rem2)
      | _ => some ([], line :: rest)
    else some ([], line :: rest)
end

/-- Parse a whole document as the dumper writes one: the flow form of the
empty mapping, or a block mapping at indentation 0 consuming every line. -/
def parseDoc (lines : List Line) : Option Entries :=
  if lines = [['\x7b', '\x7d']] then some []
  else
    match parseDict ((lines.map List.length).sum + 1) 0 lines with
    | some (d, []) => some d
    | _ => none

/-- Model of `YamlConfigSource.write` serialization (yaml_source.py lines
55-79): the text lines `safe_dump` produces for the tree. -/
def yamlWrite (d : Entries) : List String :=
  (if d.isEmpty then [['\x7b', '\x7d']] else dumpDict d 0).map String.mk

/-- Model of `YamlConfigSource.read` parsing (yaml_source.py lines 21-53)
on a file's text lines. -/
def yamlRead (ls : List String) : Option Entries :=
  parseDoc (ls.map String.toList)

mutual
/-- Fuel consumed by the parser per value: one unit per mapping entry and
per sequence element. -/
def fuelV : Val → Nat
  | .s _ | .i _ | .b _ | .null => 0
  | .list l => fuelL l
  | .dict d => fuelD d

/-- Fuel for a mapping's entries. -/
def fuelD : Entries → Nat
  | [] => 0
  | (_, v) :: tl => 1 + fuelV v + fuelD tl

/-- Fuel for a sequence's elements. -/
def fuelL : List Val → Nat
  | [] => 0
  | v :: tl => 1 + fuelV v + fuelL tl
end

/-- Digit characters map back to their values. -/
theorem digitVal_digitChar (d : Nat) (h : d < 10) : digitVal (digitChar d) = some d := by
  interval_cases d <;> rfl

/-- Characters of numerals are decimal digits (code points 48-57). -/
theorem digitChar_range (d : Nat) : 48 ≤ (digitChar d).toNat ∧ (digitChar d).toNat ≤ 57 := by
  unfold digitChar
  split <;> decide

/-- Reversed digit strings evaluate back to their number. -/
theorem parseRevDigits_natRevDigits (n : Nat) :
    parseRevDigits (natRevDigits n) = some n := by
  induction n using Nat.strong_induction_on with
  | _ n ih =>
    unfold natRevDigits
    by_cases h : n < 10
    · simp only [dif_pos h, parseRevDigits, digitVal_digitChar n h]
      rfl
    · have hd : n / 10 < n := Nat.div_lt_self (by omega) (by omega)
      simp only [dif_neg h, parseRevDigits, digitVal_digitChar (n % 10) (by omega), ih (n / 10) hd]
      congr 1
      omega

/-- Numerals are non-empty. -/
theorem natRevDigits_ne_nil (n : Nat) : natRevDigits n ≠ [] := by
  unfold natRevDigits
  by_cases h : n < 10 <;> simp [h]

/-- The unsigned parse inverts the unsigned print. -/
theorem parseNatChars_natChars (n : Nat) : parseNatChars (natChars n) = some n := by
  unfold parseNatChars natChars
  have h1 : ((natRevDigits n).reverse).isEmpty = false := by
    rcases h : natRevDigits n with _ | ⟨c, tl⟩
    · exact absurd h (natRevDigits_ne_nil n)
    · simp [h]
  simp [h1, List.reverse_reverse, parseRevDigits_natRevDigits n]

/-- Every character of a numeral is a decimal digit. -/
theorem natRevDigits_mem_range (n : Nat) (c : Char) (hc : c ∈ natRevDigits n) :
    48 ≤ c.toNat ∧ c.toNat ≤ 57 := by
  induction n using Nat.strong_induction_on with
  | _ n ih =>
    unfold natRevDigits at hc
    by_cases h : n < 10
    · simp only [dif_pos h, List.mem_singleton] at hc
      exact hc ▸ digitChar_range n
    · simp only [dif_neg h, List.mem_cons] at hc
      rcases hc with rfl | hc'
      · exact digitChar_range (n % 10)
      · exact ih (n / 10) (Nat.div_lt_self (by omega) (by omega)) hc'

/-- Characters of the printed form of a natural number. -/
theorem natChars_mem_range (n : Nat) (c : Char) (hc : c ∈ natChars n) :
    48 ≤ c.toNat ∧ c.toNat ≤ 57 :=
  natRevDigits_mem_range n c (List.mem_reverse.mp hc)

/-- The printed form of a natural number is non-empty. -/
theorem natChars_ne_nil (n : Nat) : natChars n ≠ [] := by
  unfold natChars
  simp [natRevDigits_ne_nil n]

/-- The signed parse inverts the signed print. -/
theorem parseIntChars_intChars (m : Int) : parseIntChars (intChars m) = some m := by
  unfold intChars
  by_cases h : m < 0
  · simp only [if_pos h, parseIntChars, if_pos rfl, parseNatChars_natChars]
    simp only [if_true, Option.some.injEq]
    omega
  · simp only [if_neg h]
    rcases hn : natChars m.toNat with _ | ⟨c, tl⟩
    · exact absurd hn (natChars_ne_nil m.toNat)
    · have hc : c ≠ '-' := by
        have := natChars_mem_range m.toNat c (hn ▸ List.mem_cons_self c tl)
        intro he
        rw [he] at this
        simp at this
      simp only [parseIntChars, if_neg hc, ← hn, parseNatChars_natChars]
      simp only [Option.some.injEq]
      omega

/-- Plain characters are not digits. -/
theorem plainChar_not_digit (c : Char) (h : plainChar c = true) : digitVal c = none := by
  unfold plainChar at h
  unfold digitVal
  simp only [Bool.or_eq_true, Bool.and_eq_true, decide_eq_true_eq] at h
  have hcon : ¬((48 ≤ c.toNat && c.toNat ≤ 57) = true) := by
    simp only [Bool.and_eq_true, decide_eq_true_eq]
    omega
  rw [if_neg hcon]

/-- A digit-parse of a list containing a non-digit fails. -/
theorem parseRevDigits_none (cs : List Char) (c : Char) (hc : c ∈ cs)
    (h : digitVal c = none) : parseRevDigits cs = none := by
  induction cs with
  | nil => cases hc
  | cons x tl ih =>
    rcases List.mem_cons.mp hc with rfl | hc'
    · simp [parseRevDigits, h]
    · unfold parseRevDigits
      rcases hd : digitVal x with _ | d
      · rfl
      · rw [ih hc']
  
/-- A plain string never parses as an int. -/
theorem parseIntChars_plain (cs : List Char) (h : plainStrChars cs = true) :
    parseIntChars cs = none := by
  unfold plainStrChars at h
  simp only [Bool.and_eq_true, Bool.not_eq_true', List.all_eq_true] at h
  rcases cs with _ | ⟨c, tl⟩
  · rfl
  · have hc : plainChar c = true := h.1.2 c (List.mem_cons_self c tl)
    have hcm : c ≠ '-' := by
      intro he
      rw [he] at hc
      simp [plainChar] at hc
    simp only [parseIntChars, if_neg hcm]
    unfold parseNatChars
    simp only [List.isEmpty_cons, Bool.false_eq_true, if_neg]
    rw [parseRevDigits_none ((c :: tl).reverse) c (by simp) (plainChar_not_digit c hc)]
    rfl

/-- Characters of a signed numeral: minus sign or decimal digits. -/
theorem intChars_mem_range (m : Int) (c : Char) (hc : c ∈ intChars m) :
    c.toNat = 45 ∨ (48 ≤ c.toNat ∧ c.toNat ≤ 57) := by
  unfold intChars at hc
  by_cases h : m < 0
  · rw [if_pos h] at hc
    rcases List.mem_cons.mp hc with rfl | hc'
    · left; rfl
    · exact Or.inr (natChars_mem_range _ c hc')
  · rw [if_neg h] at hc
    exact Or.inr (natChars_mem_range _ c hc)

/-- Resolver inverts the int print. -/
theorem resolveScalar_int (m : Int) : resolveScalar (intChars m) = .i m := by
  unfold resolveScalar
  rw [parseIntChars_intChars]

/-- Resolver keeps plain strings as strings. -/
theorem resolveScalar_plain (cs : Line) (h : plainStrChars cs = true) :
    resolveScalar cs = .s (String.mk cs) := by
  have hres : reservedWord cs = false := by
    unfold plainStrChars at h
    simp only [Bool.and_eq_true, Bool.not_eq_true'] at h
    exact h.2
  unfold reservedWord at hres
  simp only [Bool.or_eq_false_iff, decide_eq_false_iff_not] at hres
  unfold resolveScalar
  rw [parseIntChars_plain cs h]
  rw [if_neg hres.1.1.1.1.1.1.1.1, if_neg hres.1.1.1.1.1.1.1.2, if_neg hres.1.1.1.1.1.1.2]

/-- Plain strings are not the flow forms of the empty containers. -/
theorem plain_ne_flow (cs : Line) (h : plainStrChars cs = true) :
    cs ≠ ['\x7b', '\x7d'] ∧ cs ≠ ['[', ']'] := by
  constructor <;> intro he <;> rw [he] at h <;> exact absurd h (by decide)

/-- Numerals are not the flow forms of the empty containers. -/
theorem intChars_ne_flow (m : Int) :
    intChars m ≠ ['\x7b', '\x7d'] ∧ intChars m ≠ ['[', ']'] := by
  constructor <;> intro he
  · have := intChars_mem_range m '\x7b' (by rw [he]; exact List.mem_cons_self _ _)
    simp at this
  · have := intChars_mem_range m '[' (by rw [he]; exact List.mem_cons_self _ _)
    simp at this

/-- The inline resolver inverts the scalar print on representable
scalars. -/
theorem resolveInline_scalarChars (v : Val) (hv : reprV v = true)
    (hl : ∀ xs, v ≠ .list xs) (hd : ∀ d, v ≠ .dict d) :
    resolveInline (scalarChars v) = v := by
  match v with
  | .b true => rfl
  | .b false => rfl
  | .null => rfl
  | .i m =>
    simp only [scalarChars]
    unfold resolveInline
    rw [if_neg (intChars_ne_flow m).1, if_neg (intChars_ne_flow m).2]
    exact resolveScalar_int m
  | .s str =>
    have h : plainStrChars str.toList = true := by simpa [reprV] using hv
    simp only [scalarChars]
    unfold resolveInline
    rw [if_neg (plain_ne_flow _ h).1, if_neg (plain_ne_flow _ h).2]
    rw [resolveScalar_plain _ h]
    rfl
  | .list xs => exact absurd rfl (hl xs)
  | .dict d => exact absurd rfl (hd d)

/-- Indentation splitting recovers an explicit space prefix before a
non-space character. -/
theorem splitIndent_sp (n : Nat) (c : Char) (cs : Line) (h : c ≠ ' ') :
    splitIndent (sp n ++ c :: cs) = (n, c :: cs) := by
  induction n with
  | zero => simp [sp, splitIndent, h]
  | succ k ih =>
    show splitIndent (' ' :: (sp k ++ c :: cs)) = (k + 1, c :: cs)
    simp [splitIndent, ih]

/-- Plain characters are not structural characters. -/
theorem plainChar_ne (c : Char) (h : plainChar c = true) :
    c ≠ ' ' ∧ c ≠ '-' ∧ c ≠ ':' := by
  refine ⟨?_, ?_, ?_⟩ <;> intro he <;> rw [he] at h <;> exact absurd h (by decide)

/-- Colon splitting recovers a plain key before an explicit colon. -/
theorem splitColon_key (k : Line) (t : Line) (hk : ∀ c ∈ k, plainChar c = true) :
    splitColon (k ++ ':' :: t) = some (k, t) := by
  induction k with
  | nil => simp [splitColon]
  | cons c tl ih =>
    have hc : c ≠ ':' := (plainChar_ne c (hk c (List.mem_cons_self c tl))).2.2
    rw [List.cons_append]
    unfold splitColon
    rw [if_neg hc, ih (fun c' hc' => hk c' (List.mem_cons.mpr (Or.inr hc')))]
    rfl

/-- Colon splitting fails on colon-free content. -/
theorem splitColon_none (cs : Line) (h : ∀ c ∈ cs, c ≠ ':') :
    splitColon cs = none := by
  induction cs with
  | nil => rfl
  | cons c tl ih =>
    unfold splitColon
    rw [if_neg (h c (List.mem_cons_self c tl)),
      ih (fun c' hc' => h c' (List.mem_cons.mpr (Or.inr hc')))]
    rfl

/-- Scalar texts contain no colon. -/
theorem scalarChars_no_colon (v : Val) (hv : reprV v = true) (c : Char)
    (hc : c ∈ scalarChars v) : c ≠ ':' := by
  match v with
  | .s str =>
    have h : plainStrChars str.toList = true := by simpa [reprV] using hv
    unfold plainStrChars at h
    simp only [Bool.and_eq_true, List.all_eq_true] at h
    exact (plainChar_ne c (h.1.2 c hc)).2.2
  | .i m =>
    have := intChars_mem_range m c hc
    intro he
    rw [he] at this
    simp at this
  | .b true => intro he; rw [he] at hc; simp [scalarChars] at hc
  | .b false => intro he; rw [he] at hc; simp [scalarChars] at hc
  | .null => intro he; rw [he] at hc; simp [scalarChars] at hc
  | .list xs => simp [scalarChars] at hc
  | .dict d => simp [scalarChars] at hc

/-- Scalar texts do not start a dash item. -/
theorem scalarChars_not_dash (v : Val) (hv : reprV v = true) :
    isDashContent (scalarChars v) = false := by
  match v with
  | .s str =>
    have h : plainStrChars str.toList = true := by simpa [reprV] using hv
    unfold plainStrChars at h
    simp only [Bool.and_eq_true, List.all_eq_true] at h
    rcases hs : str.toList with _ | ⟨c, tl⟩
    · rw [hs] at h
      simp at h
    · have hc : plainChar c = true := h.1.2 c (by rw [hs]; exact List.mem_cons_self c tl)
      have hne : c ≠ '-' := (plainChar_ne c hc).2.1
      simp only [scalarChars, hs]
      unfold isDashContent
      split
      · rename_i heq
        injection heq with h1 h2
        exact absurd h1 hne
      · rfl
  | .i m =>
    simp only [scalarChars]
    unfold intChars
    by_cases h : m < 0
    · rw [if_pos h]
      rcases hn : natChars m.natAbs with _ | ⟨c, tl⟩
      · exact absurd hn (natChars_ne_nil _)
      · have hr := natChars_mem_range m.natAbs c (hn ▸ List.mem_cons_self c tl)
        have hne : c ≠ ' ' := by
          intro he
          rw [he] at hr
          simp at hr
        unfold isDashContent
        split
        · rename_i heq
          injection heq with h1 h2
          injection h2 with h2a
          exact absurd h2a hne
        · rfl
    · rw [if_neg h]
      rcases hn : natChars m.toNat with _ | ⟨c, tl⟩
      · exact absurd hn (natChars_ne_nil _)
      · have hr := natChars_mem_range m.toNat c (hn ▸ List.mem_cons_self c tl)
        have hne : c ≠ '-' := by
          intro he
          rw [he] at hr
          simp at hr
        unfold isDashContent
        split
        · rename_i heq
          injection heq with h1 h2
          exact absurd h1 hne
        · rfl
  | .b true => rfl
  | .b false => rfl
  | .null => rfl
  | .list xs => rfl
  | .dict d => rfl

/-- Length of an indentation prefix. -/
theorem sp_length (n : Nat) : (sp n).length = n := List.length_replicate n ' '

/-- Dropping an explicit indentation prefix. -/
theorem drop_sp (m : Nat) (cs : Line) : (sp m ++ cs).drop m = cs := by
  have := List.drop_left (sp m) cs
  rwa [sp_length] at this

/-- Splicing a dash into a block whose first line carries the two-deeper
indentation. -/
theorem dashFirst_cons (n : Nat) (cs : Line) (ls : List Line) :
    dashFirst n ((sp (n + 2) ++ cs) :: ls) = (sp n ++ '-' :: ' ' :: cs) :: ls := by
  simp only [dashFirst]
  rw [drop_sp]

/-- Content not starting with a dash is not a dash item. -/
theorem isDash_cons_ne (c : Char) (cs : Line) (h : c ≠ '-') :
    isDashContent (c :: cs) = false := by
  unfold isDashContent
  split
  · rename_i heq
    injection heq with h1 _
    exact absurd h1 h
  · rfl

/-- Unpack the plain-string predicate. -/
theorem plainStr_parts (cs : Line) (h : plainStrChars cs = true) :
    cs ≠ [] ∧ ∀ c ∈ cs, plainChar c = true := by
  unfold plainStrChars at h
  simp only [Bool.and_eq_true, Bool.not_eq_true', List.all_eq_true] at h
  exact ⟨by rcases cs with _ | _ <;> simp_all, h.1.2⟩

/-- Unpack representability of a mapping entry. -/
theorem reprD_cons (k : String) (v : Val) (tl : Entries) (h : reprD ((k, v) :: tl) = true) :
    plainStrChars k.toList = true ∧ reprV v = true ∧ reprD tl = true := by
  have : (plainStrChars k.toList && reprV v && reprD tl) = true := h
  simp only [Bool.and_eq_true] at this
  exact ⟨this.1.1, this.1.2, this.2⟩

/-- Unpack representability of a sequence element. -/
theorem reprL_cons (v : Val) (tl : List Val) (h : reprL (v :: tl) = true) :
    reprV v = true ∧ reprL tl = true := by
  have : (reprV v && reprL tl) = true := h
  simp only [Bool.and_eq_true] at this
  exact this

/-- First line of a dumped non-empty mapping: the first key at the block's
indentation, followed by a colon. -/
theorem dumpDict_head_shape (k : String) (v : Val) (tl : Entries) (n : Nat) :
    ∃ t ls, dumpDict ((k, v) :: tl) n = (sp n ++ (k.toList ++ ':' :: t)) :: ls := by
  match v with
  | .s s0 => exact ⟨_, _, rfl⟩
  | .i m => exact ⟨_, _, rfl⟩
  | .b b0 => exact ⟨_, _, rfl⟩
  | .null => exact ⟨_, _, rfl⟩
  | .dict [] => exact ⟨_, _, rfl⟩
  | .list [] => exact ⟨_, _, rfl⟩
  | .dict (e :: d') => exact ⟨[], _, rfl⟩
  | .list (x :: l') => exact ⟨[], _, rfl⟩

/-- First line of a dumped non-empty sequence: a dash item at the block's
indentation. -/
theorem dumpList_head_shape_aux (nn : Nat) :
    ∀ v tl n, sizeOf v ≤ nn →
      ∃ c0 ls, dumpList (v :: tl) n = (sp n ++ '-' :: ' ' :: c0) :: ls := by
  induction nn with
  | zero =>
    intro v tl n hsz
    exfalso
    cases v <;> simp at hsz
  | succ m ih =>
    intro v tl n hsz
    match v with
    | .s s0 => exact ⟨_, _, rfl⟩
    | .i m0 => exact ⟨_, _, rfl⟩
    | .b b0 => exact ⟨_, _, rfl⟩
    | .null => exact ⟨_, _, rfl⟩
    | .dict [] => exact ⟨_, _, rfl⟩
    | .list [] => exact ⟨_, _, rfl⟩
    | .dict ((k2, v2) :: d') =>
      obtain ⟨t, ls, hshape⟩ := dumpDict_head_shape k2 v2 d' (n + 2)
      refine ⟨k2.toList ++ ':' :: t, ls ++ dumpList tl n, ?_⟩
      show dashFirst n (dumpDict ((k2, v2) :: d') (n + 2)) ++ dumpList tl n = _
      rw [hshape, dashFirst_cons]
      rfl
    | .list (x :: l') =>
      have hx : sizeOf x ≤ m := by
        have h1 : sizeOf x < sizeOf (Val.list (x :: l')) := by
          simp only [Val.list.sizeOf_spec]
          have := List.sizeOf_lt_of_mem (List.mem_cons_self x l')
          omega
        omega
      obtain ⟨c1, ls, hshape⟩ := ih x l' (n + 2) hx
      refine ⟨'-' :: ' ' :: c1, ls ++ dumpList tl n, ?_⟩
      show dashFirst n (dumpList (x :: l') (n + 2)) ++ dumpList tl n = _
      rw [hshape, dashFirst_cons]
      rfl

/-- First line of a dumped non-empty sequence (wrapper). -/
theorem dumpList_head_shape (v : Val) (tl : List Val) (n : Nat) :
    ∃ c0 ls, dumpList (v :: tl) n = (sp n ++ '-' :: ' ' :: c0) :: ls :=
  dumpList_head_shape_aux (sizeOf v) v tl n le_rfl

/-- The lines following a mapping block must start strictly shallower for
the mapping parser to stop there. -/
def restStop (n : Nat) : List Line → Prop
  | [] => True
  | l :: _ => (splitIndent l).1 < n

/-- The lines following a sequence block must start shallower, or at the
same depth with non-dash content, for the sequence parser to stop there. -/
def restStopL (n : Nat) : List Line → Prop
  | [] => True
  | l :: _ => (splitIndent l).1 < n ∨
      ((splitIndent l).1 = n ∧ isDashContent (splitIndent l).2 = false)

/-- A dumped mapping block at a shallower level stops a deeper mapping
parse. -/
theorem restStop_dict_front (tl : Entries) (n m : Nat) (rest : List Line)
    (hnm : n < m) (hrepr : reprD tl = true) (hrs : restStop n rest) :
    restStop m (dumpDict tl n ++ rest) := by
  match tl with
  | [] =>
    show restStop m rest
    match rest with
    | [] => trivial
    | l :: r =>
      show (splitIndent l).1 < m
      have : (splitIndent l).1 < n := hrs
      omega
  | (k, v) :: tl' =>
    obtain ⟨t, ls, hshape⟩ := dumpDict_head_shape k v tl' n
    obtain ⟨hk, _, _⟩ := reprD_cons k v tl' hrepr
    obtain ⟨hne, hall⟩ := plainStr_parts k.toList hk
    rcases hkl : k.toList with _ | ⟨c, cs⟩
    · exact absurd hkl hne
    · have hc : c ≠ ' ' :=
        (plainChar_ne c (hall c (by rw [hkl]; exact List.mem_cons_self c cs))).1
      rw [hshape, hkl]
      show (splitIndent (sp n ++ (c :: (cs ++ ':' :: t)))).1 < m
      rw [splitIndent_sp n c _ hc]
      omega

/-- A dumped mapping block at the same level stops a sequence parse (its
first line is not a dash item). -/
theorem restStopL_dict_front (tl : Entries) (n : Nat) (rest : List Line)
    (hrepr : reprD tl = true) (hrs : restStop n rest) :
    restStopL n (dumpDict tl n ++ rest) := by
  match tl with
  | [] =>
    show restStopL n rest
    match rest with
    | [] => trivial
    | l :: r => exact Or.inl hrs
  | (k, v) :: tl' =>
    obtain ⟨t, ls, hshape⟩ := dumpDict_head_shape k v tl' n
    obtain ⟨hk, _, _⟩ := reprD_cons k v tl' hrepr
    obtain ⟨hne, hall⟩ := plainStr_parts k.toList hk
    rcases hkl : k.toList with _ | ⟨c, cs⟩
    · exact absurd hkl hne
    · have hcmem : plainChar c = true := hall c (by rw [hkl]; exact List.mem_cons_self c cs)
      have hcsp : c ≠ ' ' := (plainChar_ne c hcmem).1
      have hcdash : c ≠ '-' := (plainChar_ne c hcmem).2.1
      rw [hshape, hkl]
      refine Or.inr ?_
      show (splitIndent (sp n ++ (c :: (cs ++ ':' :: t)))).1 = n ∧
        isDashContent (splitIndent (sp n ++ (c :: (cs ++ ':' :: t)))).2 = false
      rw [splitIndent_sp n c _ hcsp]
      exact ⟨rfl, isDash_cons_ne c _ hcdash⟩

/-- A dumped sequence block at a shallower level stops a deeper mapping
parse. -/
theorem restStop_list_front (tl : List Val) (n m : Nat) (rest : List Line)
    (hnm : n < m) (hrs : restStopL n rest) :
    restStop m (dumpList tl n ++ rest) := by
  match tl with
  | [] =>
    show restStop m rest
    match rest with
    | [] => trivial
    | l :: r =>
      show (splitIndent l).1 < m
      rcases hrs with h | ⟨h, _⟩ <;> omega
  | v :: tl' =>
    obtain ⟨c0, ls, hshape⟩ := dumpList_head_shape v tl' n
    rw [hshape]
    show (splitIndent (sp n ++ ('-' :: ' ' :: c0))).1 < m
    rw [splitIndent_sp n '-' _ (by decide)]
    omega

/-- A dumped sequence block at a shallower level stops a deeper sequence
parse. -/
theorem restStopL_list_front (tl : List Val) (n m : Nat) (rest : List Line)
    (hnm : n < m) (hrs : restStopL n rest) :
    restStopL m (dumpList tl n ++ rest) := by
  match tl with
  | [] =>
    show restStopL m rest
    match rest with
    | [] => trivial
    | l :: r =>
      refine Or.inl ?_
      rcases hrs with h | ⟨h, _⟩ <;> omega
  | v :: tl' =>
    obtain ⟨c0, ls, hshape⟩ := dumpList_head_shape v tl' n
    rw [hshape]
    refine Or.inl ?_
    show (splitIndent (sp n ++ ('-' :: ' ' :: c0))).1 < m
    rw [splitIndent_sp n '-' _ (by decide)]
    omega

/-- The mapping parser stops (consuming nothing) at a stop boundary. -/
theorem parseDict_stop (f n : Nat) (lines : List Line) (h : restStop n lines) :
    parseDict (f + 1) n lines = some ([], lines) := by
  match lines with
  | [] => rfl
  | l :: r =>
    have hlt : (splitIndent l).1 < n := h
    rcases hsp : splitIndent l with ⟨i, c⟩
    rw [hsp] at hlt
    simp only [parseDict, hsp]
    rw [if_neg (by omega : ¬ i = n)]

/-- The sequence parser stops (consuming nothing) at a stop boundary. -/
theorem parseList_stop (f n : Nat) (lines : List Line) (h : restStopL n lines) :
    parseList (f + 1) n lines = some ([], lines) := by
  match lines with
  | [] => rfl
  | l :: r =>
    rcases hsp : splitIndent l with ⟨i, c⟩
    rw [show restStopL n (l :: r) = ((splitIndent l).1 < n ∨
      ((splitIndent l).1 = n ∧ isDashContent (splitIndent l).2 = false)) from rfl, hsp] at h
    simp only [parseList, hsp]
    rcases h with hlt | ⟨heq, hnd⟩
    · rw [if_neg (by omega : ¬ i = n)]
    · rw [if_pos heq]
      split
      · simp [isDashContent] at hnd
      · rfl

/-- One inline mapping entry (`key: value` on one line) parses to its key
and resolved value, then continues. -/
theorem parseDict_entry_inline (f n : Nat) (k : String) (w : Line) (L : List Line)
    (es : Entries) (rem : List Line)
    (hk : plainStrChars k.toList = true)
    (hw : ∀ c ∈ w, c ≠ ':')
    (hcont : parseDict f n L = some (es, rem)) :
    parseDict (f + 1) n ((sp n ++ (k.toList ++ ':' :: ' ' :: w)) :: L) =
      some ((k, resolveInline w) :: es, rem) := by
  obtain ⟨hne, hall⟩ := plainStr_parts k.toList hk
  have hsplit : splitIndent (sp n ++ (k.toList ++ ':' :: ' ' :: w)) =
      (n, k.toList ++ ':' :: ' ' :: w) := by
    rcases hkl : k.toList with _ | ⟨c, cs⟩
    · exact absurd hkl hne
    · have hcp : plainChar c = true := hall c (hkl ▸ List.mem_cons_self c cs)
      rw [List.cons_append]
      exact splitIndent_sp n c _ (plainChar_ne c hcp).1
  have hdash : isDashContent (k.toList ++ ':' :: ' ' :: w) = false := by
    rcases hkl : k.toList with _ | ⟨c, cs⟩
    · exact absurd hkl hne
    · have hcp : plainChar c = true := hall c (hkl ▸ List.mem_cons_self c cs)
      rw [List.cons_append]
      exact isDash_cons_ne c _ (plainChar_ne c hcp).2.1
  have hcolon : splitColon (k.toList ++ ':' :: ' ' :: w) = some (k.toList, ' ' :: w) :=
    splitColon_key k.toList (' ' :: w) hall
  have hkne : (k.toList).isEmpty = false := by
    rcases hkl : k.toList with _ | ⟨c, cs⟩
    · exact absurd hkl hne
    · rfl
  simp only [parseDict, hsplit, if_pos rfl, hdash, hcolon, hkne, hcont]
  rfl

/-- One inline sequence element (`- value` on one line) parses to its
resolved value, then continues. -/
theorem parseList_elem_inline (f n : Nat) (w : Line) (L : List Line)
    (es : List Val) (rem : List Line)
    (hndash : isDashContent w = false)
    (hnocolon : splitColon w = none)
    (hcont : parseList f n L = some (es, rem)) :
    parseList (f + 1) n ((sp n ++ ('-' :: ' ' :: w)) :: L) =
      some (resolveInline w :: es, rem) := by
  have hsplit : splitIndent (sp n ++ ('-' :: ' ' :: w)) = (n, '-' :: ' ' :: w) :=
    splitIndent_sp n '-' _ (by decide)
  simp only [parseList, hsplit, if_pos rfl, hndash, hnocolon, hcont]
  rfl

/-- Key line facts shared by the `key:` steps. -/
theorem keyline_facts (n : Nat) (k : String) (hk : plainStrChars k.toList = true) :
    splitIndent (sp n ++ (k.toList ++ [':'])) = (n, k.toList ++ [':']) ∧
    isDashContent (k.toList ++ [':']) = false ∧
    splitColon (k.toList ++ [':']) = some (k.toList, []) ∧
    (k.toList).isEmpty = false := by
  obtain ⟨hne, hall⟩ := plainStr_parts k.toList hk
  refine ⟨?_, ?_, splitColon_key k.toList [] hall, ?_⟩
  · rcases hkl : k.toList with _ | ⟨c, cs⟩
    · exact absurd hkl hne
    · rw [List.cons_append]
      exact splitIndent_sp n c _ (plainChar_ne c (hall c (hkl ▸ List.mem_cons_self c cs))).1
  · rcases hkl : k.toList with _ | ⟨c, cs⟩
    · exact absurd hkl hne
    · rw [List.cons_append]
      exact isDash_cons_ne c _ (plainChar_ne c (hall c (hkl ▸ List.mem_cons_self c cs))).2.1
  · rcases hkl : k.toList with _ | ⟨c, cs⟩
    · exact absurd hkl hne
    · rfl

/-- A `key:` line whose nested block starts strictly deeper parses as a
nested mapping value. -/
theorem parseDict_keyOnly_dict (f n m : Nat) (k : String) (next : Line)
    (tail : List Line) (d' es : Entries) (rem rem2 : List Line)
    (hk : plainStrChars k.toList = true)
    (hnext : (splitIndent next).1 = m) (hmn : n < m)
    (hsub : parseDict f m (next :: tail) = some (d', rem))
    (hcont : parseDict f n rem = some (es, rem2)) :
    parseDict (f + 1) n ((sp n ++ (k.toList ++ [':'])) :: next :: tail) =
      some ((k, .dict d') :: es, rem2) := by
  obtain ⟨h1, h2, h3, h4⟩ := keyline_facts n k hk
  rcases hsp2 : splitIndent next with ⟨i2, c2⟩
  rw [hsp2] at hnext
  simp only at hnext
  subst hnext
  simp only [parseDict, h1, if_pos rfl, h2, h3, h4, hsp2]
  rw [if_neg (by omega : ¬ i2 = n), if_pos hmn, hsub]
  simp only [hcont]
  rfl

/-- A `key:` line followed by dash items at the key's own indentation
parses as a nested sequence value. -/
theorem parseDict_keyOnly_list (f n : Nat) (k : String) (next : Line)
    (tail : List Line) (xs : List Val) (es : Entries) (rem rem2 : List Line)
    (hk : plainStrChars k.toList = true)
    (hnext1 : (splitIndent next).1 = n) (hnext2 : isDashContent (splitIndent next).2 = true)
    (hsub : parseList f n (next :: tail) = some (xs, rem))
    (hcont : parseDict f n rem = some (es, rem2)) :
    parseDict (f + 1) n ((sp n ++ (k.toList ++ [':'])) :: next :: tail) =
      some ((k, .list xs) :: es, rem2) := by
  obtain ⟨h1, h2, h3, h4⟩ := keyline_facts n k hk
  rcases hsp2 : splitIndent next with ⟨i2, c2⟩
  rw [hsp2] at hnext1 hnext2
  simp only at hnext1 hnext2
  subst hnext1
  simp only [parseDict, h1, if_pos rfl, h2, h3, h4, hsp2, hnext2, hsub, hcont]
  rfl

/-- A dash item whose stripped content is a mapping line parses as a
nested (spliced) mapping element. -/
theorem parseList_elem_nested_dict (f n : Nat) (c0 : Line) (tail : List Line)
    (d' : Entries) (es : List Val) (rem rem2 : List Line)
    (hc0dash : isDashContent c0 = false)
    (hc0colon : ∃ p, splitColon c0 = some p)
    (hsub : parseDict f (n + 2) ((sp (n + 2) ++ c0) :: tail) = some (d', rem))
    (hcont : parseList f n rem = some (es, rem2)) :
    parseList (f + 1) n ((sp n ++ ('-' :: ' ' :: c0)) :: tail) =
      some (.dict d' :: es, rem2) := by
  obtain ⟨p, hp⟩ := hc0colon
  have hsplit : splitIndent (sp n ++ ('-' :: ' ' :: c0)) = (n, '-' :: ' ' :: c0) :=
    splitIndent_sp n '-' _ (by decide)
  simp only [parseList, hsplit, if_pos rfl, hc0dash, hp, hsub, hcont]
  rfl

/-- A dash item whose stripped content is itself a dash item parses as a
nested (spliced) sequence element. -/
theorem parseList_elem_nested_list (f n : Nat) (c0 : Line) (tail : List Line)
    (xs es : List Val) (rem rem2 : List Line)
    (hc0dash : isDashContent c0 = true)
    (hsub : parseList f (n + 2) ((sp (n + 2) ++ c0) :: tail) = some (xs, rem))
    (hcont : parseList f n rem = some (es, rem2)) :
    parseList (f + 1) n ((sp n ++ ('-' :: ' ' :: c0)) :: tail) =
      some (.list xs :: es, rem2) := by
  have hsplit : splitIndent (sp n ++ ('-' :: ' ' :: c0)) = (n, '-' :: ' ' :: c0) :=
    splitIndent_sp n '-' _ (by decide)
  simp only [parseList, hsplit, if_pos rfl, hc0dash, hsub, hcont]
  rfl

/-- A scalar mapping entry parses back to its key and value, then
continues with the rest of the mapping. -/
theorem parse_entry_scalar_step (f n : Nat) (k : String) (v : Val) (tl : Entries)
    (rest : List Line)
    (hk : plainStrChars k.toList = true) (hv : reprV v = true)
    (hnl : ∀ xs, v ≠ .list xs) (hnd : ∀ dd, v ≠ .dict dd)
    (hcont : parseDict f n (dumpDict tl n ++ rest) = some (tl, rest)) :
    parseDict (f + 1) n
      ((sp n ++ (k.toList ++ ':' :: ' ' :: scalarChars v)) :: (dumpDict tl n ++ rest)) =
      some ((k, v) :: tl, rest) := by
  have h := parseDict_entry_inline f n k (scalarChars v) (dumpDict tl n ++ rest) tl rest
    hk (scalarChars_no_colon v hv) hcont
  rw [resolveInline_scalarChars v hv hnl hnd] at h
  exact h

/-- A scalar sequence element parses back to its value, then continues
with the rest of the sequence. -/
theorem parse_elem_scalar_step (f n : Nat) (v : Val) (tl : List Val) (rest : List Line)
    (hv : reprV v = true)
    (hnl : ∀ xs, v ≠ .list xs) (hnd : ∀ dd, v ≠ .dict dd)
    (hcont : parseList f n (dumpList tl n ++ rest) = some (tl, rest)) :
    parseList (f + 1) n
      ((sp n ++ ('-' :: ' ' :: scalarChars v)) :: (dumpList tl n ++ rest)) =
      some (v :: tl, rest) := by
  have h := parseList_elem_inline f n (scalarChars v) (dumpList tl n ++ rest) tl rest
    (scalarChars_not_dash v hv) (splitColon_none _ (scalarChars_no_colon v hv)) hcont
  rw [resolveInline_scalarChars v hv hnl hnd] at h
  exact h

/-- The parsers invert the dumpers: a dumped block followed by
out-of-block lines parses back to the dumped value with exactly those
lines remaining. -/
theorem parse_dump (fuel : Nat) :
    (∀ d n rest, reprD d = true → fuelD d < fuel → restStop n rest →
      parseDict fuel n (dumpDict d n ++ rest) = some (d, rest)) ∧
    (∀ l n rest, reprL l = true → fuelL l < fuel → restStopL n rest →
      parseList fuel n (dumpList l n ++ rest) = some (l, rest)) := by
  induction fuel using Nat.strong_induction_on with
  | _ fuel ih =>
  constructor
  · intro d n rest hrepr hfuel hstop
    rcases fuel with _ | f
    · omega
    rcases d with _ | ⟨⟨k, v⟩, tl⟩
    · exact parseDict_stop f n rest hstop
    obtain ⟨hk, hv, htl⟩ := reprD_cons k v tl hrepr
    have hfeq : fuelD ((k, v) :: tl) = 1 + fuelV v + fuelD tl := rfl
    have hcont : parseDict f n (dumpDict tl n ++ rest) = some (tl, rest) :=
      (ih f (by omega)).1 tl n rest htl (by omega) hstop
    cases v with
    | s s0 =>
      exact parse_entry_scalar_step f n k (.s s0) tl rest hk hv
        (fun xs h => Val.noConfusion h) (fun dd h => Val.noConfusion h) hcont
    | i m0 =>
      exact parse_entry_scalar_step f n k (.i m0) tl rest hk hv
        (fun xs h => Val.noConfusion h) (fun dd h => Val.noConfusion h) hcont
    | b b0 =>
      exact parse_entry_scalar_step f n k (.b b0) tl rest hk hv
        (fun xs h => Val.noConfusion h) (fun dd h => Val.noConfusion h) hcont
    | null =>
      exact parse_entry_scalar_step f n k .null tl rest hk hv
        (fun xs h => Val.noConfusion h) (fun dd h => Val.noConfusion h) hcont
    | dict dd =>
      rcases dd with _ | ⟨⟨k2, v2⟩, d'⟩
      · have h := parseDict_entry_inline f n k ['\x7b', '\x7d'] (dumpDict tl n ++ rest)
          tl rest hk (by decide) hcont
        exact h
      · have hvd : reprD ((k2, v2) :: d') = true := hv
        obtain ⟨hk2, _, _⟩ := reprD_cons k2 v2 d' hvd
        obtain ⟨hne2, hall2⟩ := plainStr_parts k2.toList hk2
        obtain ⟨t2, ls2, hshape⟩ := dumpDict_head_shape k2 v2 d' (n + 2)
        have hsplit2 : splitIndent (sp (n + 2) ++ (k2.toList ++ ':' :: t2)) =
            (n + 2, k2.toList ++ ':' :: t2) := by
          rcases hkl : k2.toList with _ | ⟨c, cs⟩
          · exact absurd hkl hne2
          · rw [List.cons_append]
            exact splitIndent_sp (n + 2) c _
              (plainChar_ne c (hall2 c (hkl ▸ List.mem_cons_self c cs))).1
        have hfv : fuelV (Val.dict ((k2, v2) :: d')) = fuelD ((k2, v2) :: d') := rfl
        have hinner := (ih f (by omega)).1 ((k2, v2) :: d') (n + 2)
          (dumpDict tl n ++ rest) hvd (by omega)
          (restStop_dict_front tl n (n + 2) rest (by omega) htl hstop)
        rw [hshape] at hinner
        have hinner' : parseDict f (n + 2)
            ((sp (n + 2) ++ (k2.toList ++ ':' :: t2)) :: (ls2 ++ (dumpDict tl n ++ rest))) =
            some ((k2, v2) :: d', dumpDict tl n ++ rest) := hinner
        have hstep := parseDict_keyOnly_dict f n (n + 2) k
          (sp (n + 2) ++ (k2.toList ++ ':' :: t2)) (ls2 ++ (dumpDict tl n ++ rest))
          ((k2, v2) :: d') tl (dumpDict tl n ++ rest) rest hk
          (by rw [hsplit2]) (by omega) hinner' hcont
        show parseDict (f + 1) n ((sp n ++ (k.toList ++ [':'])) ::
          ((dumpDict ((k2, v2) :: d') (n + 2) ++ dumpDict tl n) ++ rest)) =
          some ((k, .dict ((k2, v2) :: d')) :: tl, rest)
        rw [List.append_assoc, hshape]
        exact hstep
    | list ll =>
      rcases ll with _ | ⟨x, l'⟩
      · have h := parseDict_entry_inline f n k ['[', ']'] (dumpDict tl n ++ rest)
          tl rest hk (by decide) hcont
        exact h
      · have hvl : reprL (x :: l') = true := hv
        obtain ⟨c0, ls2, hshape⟩ := dumpList_head_shape x l' n
        have hsplitL : splitIndent (sp n ++ ('-' :: ' ' :: c0)) = (n, '-' :: ' ' :: c0) :=
          splitIndent_sp n '-' _ (by decide)
        have hfv : fuelV (Val.list (x :: l')) = fuelL (x :: l') := rfl
        have hinner := (ih f (by omega)).2 (x :: l') n (dumpDict tl n ++ rest) hvl
          (by omega) (restStopL_dict_front tl n rest htl hstop)
        rw [hshape] at hinner
        have hinner' : parseList f n
            ((sp n ++ ('-' :: ' ' :: c0)) :: (ls2 ++ (dumpDict tl n ++ rest))) =
            some (x :: l', dumpDict tl n ++ rest) := hinner
        have hstep := parseDict_keyOnly_list f n k (sp n ++ ('-' :: ' ' :: c0))
          (ls2 ++ (dumpDict tl n ++ rest)) (x :: l') tl (dumpDict tl n ++ rest) rest hk
          (by rw [hsplitL]) (by rw [hsplitL]; rfl) hinner' hcont
        show parseDict (f + 1) n ((sp n ++ (k.toList ++ [':'])) ::
          ((dumpList (x :: l') n ++ dumpDict tl n) ++ rest)) =
          some ((k, .list (x :: l')) :: tl, rest)
        rw [List.append_assoc, hshape]
        exact hstep
  · intro l n rest hrepr hfuel hstop
    rcases fuel with _ | f
    · omega
    rcases l with _ | ⟨v, tl⟩
    · exact parseList_stop f n rest hstop
    obtain ⟨hv, htl⟩ := reprL_cons v tl hrepr
    have hfeq : fuelL (v :: tl) = 1 + fuelV v + fuelL tl := rfl
    have hcont : parseList f n (dumpList tl n ++ rest) = some (tl, rest) :=
      (ih f (by omega)).2 tl n rest htl (by omega) hstop
    cases v with
    | s s0 =>
      exact parse_elem_scalar_step f n (.s s0) tl rest hv
        (fun xs h => Val.noConfusion h) (fun dd h => Val.noConfusion h) hcont
    | i m0 =>
      exact parse_elem_scalar_step f n (.i m0) tl rest hv
        (fun xs h => Val.noConfusion h) (fun dd h => Val.noConfusion h) hcont
    | b b0 =>
      exact parse_elem_scalar_step f n (.b b0) tl rest hv
        (fun xs h => Val.noConfusion h) (fun dd h => Val.noConfusion h) hcont
    | null =>
      exact parse_elem_scalar_step f n .null tl rest hv
        (fun xs h => Val.noConfusion h) (fun dd h => Val.noConfusion h) hcont
    | dict dd =>
      rcases dd with _ | ⟨⟨k2, v2⟩, d'⟩
      · have h := parseList_elem_inline f n ['\x7b', '\x7d'] (dumpList tl n ++ rest)
          tl rest (by decide) (by decide) hcont
        exact h
      · have hvd : reprD ((k2, v2) :: d') = true := hv
        obtain ⟨hk2, _, _⟩ := reprD_cons k2 v2 d' hvd
        obtain ⟨hne2, hall2⟩ := plainStr_parts k2.toList hk2
        obtain ⟨t2, ls2, hshape⟩ := dumpDict_head_shape k2 v2 d' (n + 2)
        have hc0dash : isDashContent (k2.toList ++ ':' :: t2) = false := by
          rcases hkl : k2.toList with _ | ⟨c, cs⟩
          · exact absurd hkl hne2
          · rw [List.cons_append]
            exact isDash_cons_ne c _
              (plainChar_ne c (hall2 c (hkl ▸ List.mem_cons_self c cs))).2.1
        have hfv : fuelV (Val.dict ((k2, v2) :: d')) = fuelD ((k2, v2) :: d') := rfl
        have hinner := (ih f (by omega)).1 ((k2, v2) :: d') (n + 2)
          (dumpList tl n ++ rest) hvd (by omega)
          (restStop_list_front tl n (n + 2) rest (by omega) hstop)
        rw [hshape] at hinner
        have hinner' : parseDict f (n + 2)
            ((sp (n + 2) ++ (k2.toList ++ ':' :: t2)) :: (ls2 ++ (dumpList tl n ++ rest))) =
            some ((k2, v2) :: d', dumpList tl n ++ rest) := hinner
        have hstep := parseList_elem_nested_dict f n (k2.toList ++ ':' :: t2)
          (ls2 ++ (dumpList tl n ++ rest)) ((k2, v2) :: d') tl
          (dumpList tl n ++ rest) rest hc0dash
          ⟨(k2.toList, t2), splitColon_key k2.toList t2 hall2⟩ hinner' hcont
        show parseList (f + 1) n
          ((dashFirst n (dumpDict ((k2, v2) :: d') (n + 2)) ++ dumpList tl n) ++ rest) =
          some (.dict ((k2, v2) :: d') :: tl, rest)
        rw [hshape, dashFirst_cons, List.append_assoc]
        exact hstep
    | list ll =>
      rcases ll with _ | ⟨x2, l2⟩
      · have h := parseList_elem_inline f n ['[', ']'] (dumpList tl n ++ rest)
          tl rest (by decide) (by decide) hcont
        exact h
      · have hvl : reprL (x2 :: l2) = true := hv
        obtain ⟨c1, ls2, hshape⟩ := dumpList_head_shape x2 l2 (n + 2)
        have hfv : fuelV (Val.list (x2 :: l2)) = fuelL (x2 :: l2) := rfl
        have hinner := (ih f (by omega)).2 (x2 :: l2) (n + 2)
          (dumpList tl n ++ rest) hvl (by omega)
          (restStopL_list_front tl n (n + 2) rest (by omega) hstop)
        rw [hshape] at hinner
        have hinner' : parseList f (n + 2)
            ((sp (n + 2) ++ ('-' :: ' ' :: c1)) :: (ls2 ++ (dumpList tl n ++ rest))) =
            some (x2 :: l2, dumpList tl n ++ rest) := hinner
        have hstep := parseList_elem_nested_list f n ('-' :: ' ' :: c1)
          (ls2 ++ (dumpList tl n ++ rest)) (x2 :: l2) tl
          (dumpList tl n ++ rest) rest rfl hinner' hcont
        show parseList (f + 1) n
          ((dashFirst n (dumpList (x2 :: l2) (n + 2)) ++ dumpList tl n) ++ rest) =
          some (.list (x2 :: l2) :: tl, rest)
        rw [hshape, dashFirst_cons, List.append_assoc]
        exact hstep

/-- Total character count of a list of lines. -/
def totalLen (ls : List Line) : Nat := (ls.map List.length).sum

/-- Character counts add up across concatenated line lists. -/
theorem totalLen_append (a b : List Line) :
    totalLen (a ++ b) = totalLen a + totalLen b := by
  simp [totalLen]

/-- The parser fuel a dumped block needs is covered by its character
count; the indentation width provides the slack consumed by dash
splices. -/
theorem fuel_le_totalLen_aux (N : Nat) :
    (∀ d n, sizeOf d ≤ N → d ≠ [] → fuelD d + n ≤ totalLen (dumpDict d n)) ∧
    (∀ l n, sizeOf l ≤ N → l ≠ [] → fuelL l + n ≤ totalLen (dumpList l n)) := by
  induction N using Nat.strong_induction_on with
  | _ N ih =>
  have hszv : ∀ (k : String) (v : Val) (tl : Entries), sizeOf v < sizeOf ((k, v) :: tl) := by
    intro k v tl
    have h1 : sizeOf (k, v) = 1 + sizeOf k + sizeOf v := rfl
    have h2 : sizeOf ((k, v) :: tl) = 1 + sizeOf (k, v) + sizeOf tl := rfl
    omega
  have hsztl : ∀ (e : String × Val) (tl : Entries), sizeOf tl < sizeOf (e :: tl) := by
    intro e tl
    have h2 : sizeOf (e :: tl) = 1 + sizeOf e + sizeOf tl := rfl
    have : 0 < sizeOf e := by
      rcases e with ⟨a, b⟩
      have : sizeOf (a, b) = 1 + sizeOf a + sizeOf b := rfl
      omega
    omega
  have hszl : ∀ (v : Val) (tl : List Val), sizeOf v < sizeOf (v :: tl) := by
    intro v tl
    have h2 : sizeOf (v :: tl) = 1 + sizeOf v + sizeOf tl := rfl
    omega
  have hszlt : ∀ (v : Val) (tl : List Val), sizeOf tl < sizeOf (v :: tl) := by
    intro v tl
    have h2 : sizeOf (v :: tl) = 1 + sizeOf v + sizeOf tl := rfl
    have : 0 < sizeOf v := by cases v <;> simp
    omega
  -- weak forms allowing the empty block
  have weakD : ∀ d n, sizeOf d < N → fuelD d ≤ totalLen (dumpDict d n) := by
    intro d n hsz
    rcases d with _ | ⟨e, tl⟩
    · simp [fuelD, dumpDict, totalLen]
    · have := (ih (sizeOf (e :: tl)) (by omega)).1 (e :: tl) n le_rfl (by simp)
      omega
  have weakL : ∀ l n, sizeOf l < N → fuelL l ≤ totalLen (dumpList l n) := by
    intro l n hsz
    rcases l with _ | ⟨v, tl⟩
    · simp [fuelL, dumpList, totalLen]
    · have := (ih (sizeOf (v :: tl)) (by omega)).2 (v :: tl) n le_rfl (by simp)
      omega
  -- per-value bound for an entry or element at indentation n
  have entryBound : ∀ (k : String) (v : Val) n, sizeOf v < N →
      1 + fuelV v + n ≤ totalLen (dumpEntry k v n) := by
    intro k v n hsz
    cases v with
    | s s0 =>
      show 1 + 0 + n ≤ totalLen [sp n ++ (k.toList ++ ':' :: ' ' :: scalarChars (.s s0))]
      simp [totalLen, sp]
      omega
    | i m0 =>
      show 1 + 0 + n ≤ totalLen [sp n ++ (k.toList ++ ':' :: ' ' :: scalarChars (.i m0))]
      simp [totalLen, sp]
      omega
    | b b0 =>
      show 1 + 0 + n ≤ totalLen [sp n ++ (k.toList ++ ':' :: ' ' :: scalarChars (.b b0))]
      simp [totalLen, sp]
      omega
    | null =>
      show 1 + 0 + n ≤ totalLen [sp n ++ (k.toList ++ ':' :: ' ' :: scalarChars .null)]
      simp [totalLen, sp]
      omega
    | dict dd =>
      rcases dd with _ | ⟨e2, d'⟩
      · show 1 + 0 + n ≤
          totalLen [sp n ++ (k.toList ++ ':' :: ' ' :: '\x7b' :: '\x7d' :: [])]
        simp [totalLen, sp]
        omega
      · have hinner := (ih (sizeOf (e2 :: d')) (by
            have h1 := Val.dict.sizeOf_spec (e2 :: d')
            omega)).1 (e2 :: d') (n + 2) le_rfl (by simp)
        have hfv : fuelV (Val.dict (e2 :: d')) = fuelD (e2 :: d') := rfl
        show 1 + fuelV (Val.dict (e2 :: d')) + n ≤
          totalLen ((sp n ++ (k.toList ++ [':'])) :: dumpDict (e2 :: d') (n + 2))
        have hsplit : totalLen ((sp n ++ (k.toList ++ [':'])) :: dumpDict (e2 :: d') (n + 2)) =
            (sp n ++ (k.toList ++ [':'])).length + totalLen (dumpDict (e2 :: d') (n + 2)) := by
          simp [totalLen]
        have hklen : (sp n ++ (k.toList ++ [':'])).length = n + k.toList.length + 1 := by
          simp [sp]
          omega
        rw [hsplit]
        omega
    | list ll =>
      rcases ll with _ | ⟨x, l'⟩
      · show 1 + 0 + n ≤
          totalLen [sp n ++ (k.toList ++ ':' :: ' ' :: '[' :: ']' :: [])]
        simp [totalLen, sp]
        omega
      · have hinner := (ih (sizeOf (x :: l')) (by
            have h1 := Val.list.sizeOf_spec (x :: l')
            omega)).2 (x :: l') n le_rfl (by simp)
        have hfv : fuelV (Val.list (x :: l')) = fuelL (x :: l') := rfl
        show 1 + fuelV (Val.list (x :: l')) + n ≤
          totalLen ((sp n ++ (k.toList ++ [':'])) :: dumpList (x :: l') n)
        have hsplit : totalLen ((sp n ++ (k.toList ++ [':'])) :: dumpList (x :: l') n) =
            (sp n ++ (k.toList ++ [':'])).length + totalLen (dumpList (x :: l') n) := by
          simp [totalLen]
        have hklen : (sp n ++ (k.toList ++ [':'])).length = n + k.toList.length + 1 := by
          simp [sp]
          omega
        rw [hsplit]
        omega
  have elemBound : ∀ (v : Val) n, sizeOf v < N →
      1 + fuelV v + n ≤ totalLen (dumpElem v n) := by
    intro v n hsz
    cases v with
    | s s0 =>
      show 1 + 0 + n ≤ totalLen [sp n ++ ('-' :: ' ' :: scalarChars (.s s0))]
      simp [totalLen, sp]
      omega
    | i m0 =>
      show 1 + 0 + n ≤ totalLen [sp n ++ ('-' :: ' ' :: scalarChars (.i m0))]
      simp [totalLen, sp]
      omega
    | b b0 =>
      show 1 + 0 + n ≤ totalLen [sp n ++ ('-' :: ' ' :: scalarChars (.b b0))]
      simp [totalLen, sp]
      omega
    | null =>
      show 1 + 0 + n ≤ totalLen [sp n ++ ('-' :: ' ' :: scalarChars .null)]
      simp [totalLen, sp]
      omega
    | dict dd =>
      rcases dd with _ | ⟨⟨k2, v2⟩, d'⟩
      · show 1 + 0 + n ≤ totalLen [sp n ++ ('-' :: ' ' :: '\x7b' :: '\x7d' :: [])]
        simp [totalLen, sp]
        omega
      · have hinner := (ih (sizeOf ((k2, v2) :: d')) (by
            have h1 := Val.dict.sizeOf_spec ((k2, v2) :: d')
            omega)).1 ((k2, v2) :: d') (n + 2) le_rfl (by simp)
        have hfv : fuelV (Val.dict ((k2, v2) :: d')) = fuelD ((k2, v2) :: d') := rfl
        obtain ⟨t2, ls2, hshape⟩ := dumpDict_head_shape k2 v2 d' (n + 2)
        show 1 + fuelV (Val.dict ((k2, v2) :: d')) + n ≤
          totalLen (dashFirst n (dumpDict ((k2, v2) :: d') (n + 2)))
        rw [hshape, dashFirst_cons]
        have hlen : totalLen ((sp n ++ '-' :: ' ' :: (k2.toList ++ ':' :: t2)) :: ls2) =
            totalLen ((sp (n + 2) ++ (k2.toList ++ ':' :: t2)) :: ls2) := by
          simp [totalLen, sp]
          omega
        rw [hlen, ← hshape]
        omega
    | list ll =>
      rcases ll with _ | ⟨x2, l2⟩
      · show 1 + 0 + n ≤ totalLen [sp n ++ ('-' :: ' ' :: '[' :: ']' :: [])]
        simp [totalLen, sp]
        omega
      · have hinner := (ih (sizeOf (x2 :: l2)) (by
            have h1 := Val.list.sizeOf_spec (x2 :: l2)
            omega)).2 (x2 :: l2) (n + 2) le_rfl (by simp)
        have hfv : fuelV (Val.list (x2 :: l2)) = fuelL (x2 :: l2) := rfl
        obtain ⟨c1, ls2, hshape⟩ := dumpList_head_shape x2 l2 (n + 2)
        show 1 + fuelV (Val.list (x2 :: l2)) + n ≤
          totalLen (dashFirst n (dumpList (x2 :: l2) (n + 2)))
        rw [hshape, dashFirst_cons]
        have hlen : totalLen ((sp n ++ '-' :: ' ' :: ('-' :: ' ' :: c1)) :: ls2) =
            totalLen ((sp (n + 2) ++ ('-' :: ' ' :: c1)) :: ls2) := by
          simp [totalLen, sp]
          omega
        rw [hlen, ← hshape]
        omega
  constructor
  · intro d n hsz hne
    rcases d with _ | ⟨⟨k, v⟩, tl⟩
    · exact absurd rfl hne
    have h1 : dumpDict ((k, v) :: tl) n = dumpEntry k v n ++ dumpDict tl n := rfl
    have h2 : fuelD ((k, v) :: tl) = 1 + fuelV v + fuelD tl := rfl
    rw [h1, totalLen_append, h2]
    have he := entryBound k v n (by have := hszv k v tl; omega)
    have ht := weakD tl n (by have := hsztl (k, v) tl; omega)
    omega
  · intro l n hsz hne
    rcases l with _ | ⟨v, tl⟩
    · exact absurd rfl hne
    have h1 : dumpList (v :: tl) n = dumpElem v n ++ dumpList tl n := rfl
    have h2 : fuelL (v :: tl) = 1 + fuelV v + fuelL tl := rfl
    rw [h1, totalLen_append, h2]
    have he := elemBound v n (by have := hszl v tl; omega)
    have ht := weakL tl n (by have := hszlt v tl; omega)
    omega

/-- Claim C8: writing a representable configuration tree through the
YAML source and reading it back yields an equal tree
(`safe_load(safe_dump(T)) == T` at the level of text lines, for all
representable scalar/list/mapping shapes). -/
theorem yamlWrite_yamlRead_roundtrip (d : Entries) (h : reprD d = true) :
    yamlRead (yamlWrite d) = some d := by
  unfold yamlWrite yamlRead
  by_cases hd : d.isEmpty
  · have hdnil : d = [] := by
      rcases d with _ | _
      · rfl
      · simp at hd
    subst hdnil
    rfl
  · rw [if_neg hd]
    have hdne : d ≠ [] := by
      rcases d with _ | _
      · simp at hd
      · simp
    have hmaps : List.map String.toList (List.map String.mk (dumpDict d 0)) =
        dumpDict d 0 := by
      rw [List.map_map]
      have hcomp : (String.toList ∘ String.mk) = id := funext (fun cs => rfl)
      rw [hcomp, List.map_id]
    rw [hmaps]
    unfold parseDoc
    have hne2 : dumpDict d 0 ≠ [['\x7b', '\x7d']] := by
      rcases d with _ | ⟨⟨k, v⟩, tl⟩
      · simp at hd
      obtain ⟨hk, _, _⟩ := reprD_cons k v tl h
      obtain ⟨hneK, hallK⟩ := plainStr_parts k.toList hk
      obtain ⟨t2, ls2, hshape⟩ := dumpDict_head_shape k v tl 0
      rw [hshape]
      intro heq
      injection heq with h1 h2
      rcases hkl : k.toList with _ | ⟨c, cs⟩
      · exact absurd hkl hneK
      have hcp : plainChar c = true := hallK c (hkl ▸ List.mem_cons_self c cs)
      rw [hkl] at h1
      simp [sp] at h1
      rcases h1 with ⟨h1a, _⟩
      rw [h1a] at hcp
      exact absurd hcp (by decide)
    rw [if_neg hne2]
    have hfuel : fuelD d < (List.map List.length (dumpDict d 0)).sum + 1 := by
      have := (fuel_le_totalLen_aux (sizeOf d)).1 d 0 le_rfl hdne
      simp only [totalLen] at this
      omega
    have hmain := (parse_dump ((List.map List.length (dumpDict d 0)).sum + 1)).1
      d 0 [] h hfuel trivial
    rw [List.append_nil] at hmain
    rw [hmain]

/-- Witness for C8 at a tree exercising every representable shape: ints,
strings, bools, null, nested mappings, lists, nested lists, lists of
mappings and empty containers. -/
theorem yamlWrite_yamlRead_roundtrip_witness :
    yamlRead (yamlWrite [("a", .i 1), ("name", .s "prod"), ("neg", .i (-42)),
      ("flag", .b true), ("nothing", .null), ("emptym", .dict []),
      ("db", .dict [("host", .s "localhost")]),
      ("xs", .list [.i 1, .s "two", .list [.i 3], .dict [("k", .i 5)], .dict []])]) =
      some [("a", .i 1), ("name", .s "prod"), ("neg", .i (-42)),
      ("flag", .b true), ("nothing", .null), ("emptym", .dict []),
      ("db", .dict [("host", .s "localhost")]),
      ("xs", .list [.i 1, .s "two", .list [.i 3], .dict [("k", .i 5)], .dict []])] :=
  yamlWrite_yamlRead_roundtrip _ (by rfl)
